import Mathlib

/-!
Shallow embedding of the apple-data-import aggregation-and-reconciliation
pipeline: the listen classifier and aggregator (`analyze_music.py`,
`analyze_music_watch.py`), the record merger / deduplicator
(`deduplicate_albums.py`, `merge_maybe_data.py`), the activity matcher
(`fetch_strava_data.py`) and the catalog key derivation (`add_genres.py`),
together with proofs of the specified properties.

Python strings are modelled by `String` (an absent or empty field both behave
as falsy, so both are encoded as `""` where only truthiness matters); numeric
duration fields are modelled by `DurField` (missing / malformed / a rational);
timestamps compared as seconds are modelled by `Int`; JSON dicts whose exact
key set matters are modelled by insertion-ordered association lists.
-/

namespace AppleData

/-! ### Character-list string primitives

The Python string operations the pipeline uses are implemented here by
structural recursion over `String.data`, so that every definition reduces
inside the kernel on concrete inputs. -/

/-- `startsWithL l pat`: `l` begins with the character sequence `pat`. -/
def startsWithL : List Char → List Char → Bool
  | _, [] => true
  | [], _ :: _ => false
  | a :: as, b :: bs => a = b && startsWithL as bs

/-- `containsL l pat`: `pat` occurs contiguously somewhere in `l`
(Python's `pat in l`; the empty pattern always occurs). -/
def containsL : List Char → List Char → Bool
  | [], pat => pat.isEmpty
  | a :: as, pat => startsWithL (a :: as) pat || containsL as pat

/-- Split at the first occurrence of the separator, `none` when it does not
occur (Python's `l.split(sep, 1)` restricted to a non-empty separator). -/
def splitFirstL (sep : List Char) : List Char → Option (List Char × List Char)
  | [] => if startsWithL [] sep then some ([], []) else none
  | c :: rest =>
    if startsWithL (c :: rest) sep then some ([], (c :: rest).drop sep.length)
    else (splitFirstL sep rest).map fun p => (c :: p.1, p.2)

/-- Code-point lexicographic strict order (Python's `<` on strings). -/
def lexLtL : List Char → List Char → Bool
  | [], [] => false
  | [], _ :: _ => true
  | _ :: _, [] => false
  | a :: as, b :: bs => a < b || (a = b && lexLtL as bs)

/-- Python's `s.strip()`: remove leading and trailing whitespace. -/
def pyStrip (s : String) : String :=
  ⟨((s.data.dropWhile Char.isWhitespace).reverse.dropWhile
      Char.isWhitespace).reverse⟩

/-- Python's `s.endswith(t)`. -/
def pyEndsWith (s t : String) : Bool :=
  startsWithL s.data.reverse t.data.reverse

/-- Python's `s[:-n]` for `0 < n ≤ len(s)`: drop the last `n` characters. -/
def pyDropRight (s : String) (n : Nat) : String :=
  ⟨s.data.take (s.data.length - n)⟩

/-- Python's `needle in hay` substring test. -/
def strContains (hay needle : String) : Bool :=
  containsL hay.data needle.data

/-- Python's `s.upper()` (the device fields only carry ASCII). -/
def pyUpper (s : String) : String :=
  ⟨s.data.map Char.toUpper⟩

/-- Python's `s < t` on strings: code-point lexicographic comparison. -/
def pyLt (s t : String) : Bool :=
  lexLtL s.data t.data

/-- The `" - Single"` suffix normalization used by `analyze_music_watch.py`
and `add_genres.py`: `if album.endswith(' - Single'): album = album[:-9]`. -/
def stripSingle (s : String) : String :=
  if pyEndsWith s " - Single" then pyDropRight s 9 else s

/-- Python's `a or b or c` over strings: first truthy (non-empty) value. -/
def firstNonEmpty (a b c : String) : String :=
  if a ≠ "" then a else if b ≠ "" then b else c

/-- Python's `desc.split(' - ', 1)` when `' - ' in desc`: split at the first
occurrence of `" - "`; `none` when the separator does not occur. -/
def splitFirstDash (s : String) : Option (String × String) :=
  (splitFirstL " - ".data s.data).map fun p => (⟨p.1⟩, ⟨p.2⟩)

/-! ### Listen classifier (`analyze_music.py` / `analyze_music_watch.py`,
`is_track_listened`) -/

/-- A raw numeric CSV field as seen by
`float(row.get('...', 0) or 0)`: the column may be missing or empty
(both coerce to `0`), hold a parseable number, or be malformed
(`float` raises `ValueError`). -/
inductive DurField where
  | missing : DurField
  | malformed : DurField
  | num : ℚ → DurField
deriving DecidableEq, Repr

/-- The value `float(row.get(col, 0) or 0)` produces, `none` when it raises. -/
def DurField.parse : DurField → Option ℚ
  | .missing => some 0
  | .malformed => none
  | .num q => some q

/-- `LISTEN_THRESHOLD = 0.50`. -/
def LISTEN_THRESHOLD : ℚ := 1 / 2

/-- `is_track_listened` from `analyze_music.py` lines 52-64 (identical in
`analyze_music_watch.py`): convert both duration fields (a `ValueError` or
`TypeError` yields `False`), return `False` on zero media duration, otherwise
compare the play fraction against the listen threshold. -/
def is_track_listened (playDur mediaDur : DurField) : Bool :=
  match playDur.parse, mediaDur.parse with
  | some p, some m =>
      if m = 0 then false else decide (LISTEN_THRESHOLD ≤ p / m)
  | _, _ => false

/-! ### Rows and entity-key derivation -/

/-- One row of the Play Activity CSV, restricted to the columns the analyzers
read. A missing column and an empty value are both `""` (both are falsy in
every use below). -/
structure Row where
  albumName : String
  containerAlbumName : String
  containerName : String
  songName : String
  playDur : DurField
  mediaDur : DurField
  deviceType : String
  deviceOS : String
  deviceName : String
  eventEnd : String
  eventStart : String
deriving DecidableEq, Repr

/-- The raw album-identifying value: first non-empty of `Album Name`,
`Container Album Name`, `Container Name`. -/
def rawAlbumField (r : Row) : String :=
  firstNonEmpty r.albumName r.containerAlbumName r.containerName

/-- `MusicAnalyzer.get_album_key` (`analyze_music.py` lines 66-77): the first
non-empty album field, stripped of surrounding whitespace, paired with the
empty artist name. No suffix normalization is applied here. -/
def get_album_key (r : Row) : String × String :=
  (pyStrip (rawAlbumField r), "")

/-- The album key derived inside `WatchAlbumAnalyzer.process_play_activity`
(`analyze_music_watch.py` lines 162-168): same candidate fields, then the
`" - Single"` suffix is removed. -/
def watchAlbumName (r : Row) : String :=
  stripSingle (pyStrip (rawAlbumField r))

/-- The album key `load_genres_from_csv` (`add_genres.py` lines 36-58) derives
from a `Container Description`: the part after the first `" - "` when present,
else the whole description; in both branches the `" - Single"` suffix is
stripped. `none` when the description is empty and has no separator. (The
non-empty-genres checks that additionally gate dict insertion are not
modelled; only the key normalization is.) -/
def genreAlbumKey (desc : String) : Option String :=
  match splitFirstDash desc with
  | some (_, albumPart) => some (stripSingle (pyStrip albumPart))
  | none => if desc ≠ "" then some (stripSingle (pyStrip desc)) else none

/-- `watch_indicators = ['WATCH', 'WATCHOS']`. -/
def watch_indicators : List String := ["WATCH", "WATCHOS"]

/-- `is_watch_device`: a case-insensitive substring test of each indicator
against device type, OS name and client device name; any hit sets the flag. -/
def is_watch_device (r : Row) : Bool :=
  watch_indicators.any fun ind =>
    strContains (pyUpper r.deviceType) ind || strContains (pyUpper r.deviceOS) ind
      || strContains (pyUpper r.deviceName) ind

/-- `row.get('Event End Timestamp', '') or row.get('Event Start Timestamp', '')`. -/
def eventTimestamp (r : Row) : String :=
  if r.eventEnd ≠ "" then r.eventEnd else r.eventStart

/-! ### Aggregator (`analyze_music.py`, `MusicAnalyzer.process_csv`) -/

/-- An album key: `(album_name, artist_name)` with artist always `""`. -/
abbrev AlbumKey := String × String

/-- The mutable aggregation state of `MusicAnalyzer`: the per-key defaultdict
sets and counters, modelled as total functions with the defaultdict defaults
(`set()`, `0`) and the plain dicts as `Option`-valued functions. -/
structure AggState where
  albumTracks : AlbumKey → Finset String
  listenedTracks : AlbumKey → Finset String
  playCounts : AlbumKey → Nat
  watchAlbums : AlbumKey → Bool
  firstListen : AlbumKey → Option String
  lastListen : AlbumKey → Option String

/-- The state of a fresh `MusicAnalyzer`. -/
def initAgg : AggState :=
  { albumTracks := fun _ => ∅
    listenedTracks := fun _ => ∅
    playCounts := fun _ => 0
    watchAlbums := fun _ => false
    firstListen := fun _ => none
    lastListen := fun _ => none }

/-- Insert one value at one key of a per-key set map. -/
def updFin (f : AlbumKey → Finset String) (k : AlbumKey) (v : String) :
    AlbumKey → Finset String :=
  fun k' => if k' = k then insert v (f k') else f k'

/-- The earliest-timestamp update: absent dict entry is set; a strictly
smaller timestamp replaces the current one. -/
def updFirst (cur : Option String) (ts : String) : Option String :=
  match cur with
  | none => some ts
  | some c => if pyLt ts c then some ts else some c

/-- The latest-timestamp update. -/
def updLast (cur : Option String) (ts : String) : Option String :=
  match cur with
  | none => some ts
  | some c => if pyLt c ts then some ts else some c

/-- The body of the `for row in reader` loop in `process_csv`
(`analyze_music.py` lines 103-137): skip rows with empty key or song, else
add the song to the key's track set, to the listened set when the classifier
fires, bump the play count, fold the event timestamp into first/last listen
when non-empty, and mark the key as a watch album when the device matches. -/
def processRow (s : AggState) (r : Row) : AggState :=
  let key := get_album_key r
  let song := pyStrip r.songName
  if key.1 = "" ∨ song = "" then s
  else
    let ts := eventTimestamp r
    { albumTracks := updFin s.albumTracks key song
      listenedTracks :=
        if is_track_listened r.playDur r.mediaDur then
          updFin s.listenedTracks key song
        else s.listenedTracks
      playCounts := fun k' =>
        if k' = key then s.playCounts k' + 1 else s.playCounts k'
      watchAlbums := fun k' =>
        if k' = key then (s.watchAlbums k' || is_watch_device r)
        else s.watchAlbums k'
      firstListen := fun k' =>
        if k' = key ∧ ts ≠ "" then updFirst (s.firstListen k') ts
        else s.firstListen k'
      lastListen := fun k' =>
        if k' = key ∧ ts ≠ "" then updLast (s.lastListen k') ts
        else s.lastListen k' }

/-- One full pass of `process_csv` over the event stream, in file order. -/
def processAll (rows : List Row) : AggState :=
  rows.foldl processRow initAgg

/-- `COMPLETION_THRESHOLD = 0.70`. -/
def COMPLETION_THRESHOLD : ℚ := 7 / 10

/-- `listened_tracks / total_tracks` for one aggregate (the value
`calculate_completed_albums` computes after its zero guard). -/
def completion_ratio (s : AggState) (k : AlbumKey) : ℚ :=
  ((s.listenedTracks k).card : ℚ) / ((s.albumTracks k).card : ℚ)

/-- `MusicAnalyzer.calculate_completed_albums` (`analyze_music.py` lines
139-167) restricted to key selection: iterate the aggregated keys, skip a key
with zero tracks (`continue` before any division), keep those whose completion
ratio meets the threshold. `keys` stands for the dict iteration order of
`self.album_tracks`. -/
def calculate_completed (s : AggState) (keys : List AlbumKey) : List AlbumKey :=
  keys.filter fun k =>
    (s.albumTracks k).card ≠ 0 ∧ COMPLETION_THRESHOLD ≤ completion_ratio s k

/-! ### Record merger / deduplicator (`deduplicate_albums.py`) -/

/-- A persisted album record from `data.json`, restricted to the fields
`merge_albums` reads or writes. `first_listen`/`last_listen` use `""` for an
absent or empty value (identical behaviour under `album.get(...)` truthiness);
`artist_name`/`genre` keep presence explicit; the namespaced `strava_*` fields
are an insertion-ordered association list, since `merge_albums` copies them
by key. All remaining body fields ride along with the base record via
`.copy()` and are not modelled individually. -/
structure Album where
  album_name : String
  play_count : Nat
  starred : Bool
  first_listen : String
  last_listen : String
  artist_name : Option String
  genre : Option String
  strava : List (String × String)
deriving DecidableEq, Repr

/-- Python truthiness of `d.get(key)` over our association lists: the key is
present with a non-empty value. -/
def truthy (o : Option String) : Bool :=
  match o with
  | none => false
  | some s => s ≠ ""

/-- `d[k] = v` on an insertion-ordered dict: replace in place when the key
exists, append otherwise. -/
def dictSet (m : List (String × String)) (k v : String) :
    List (String × String) :=
  if m.any (fun p => p.1 = k) then
    m.map fun p => if p.1 = k then (k, v) else p
  else m ++ [(k, v)]

/-- `for key in donor: base[key] = donor[key]` over strava fields. -/
def dictSetAll (base donor : List (String × String)) :
    List (String × String) :=
  donor.foldl (fun acc p => dictSet acc p.1 p.2) base

/-- The body of the `for album in sorted_albums[1:]` loop of `merge_albums`
(`deduplicate_albums.py` lines 26-52): OR the starred flag, fold first/last
listen, and copy all `strava_` fields when the merge target still lacks a
truthy `strava_activity_id` and the folded record has one. -/
def foldAlbum (merged a : Album) : Album :=
  let m1 := if a.starred then { merged with starred := true } else merged
  let m2 :=
    if a.first_listen ≠ "" then
      if m1.first_listen = "" ∨ pyLt a.first_listen m1.first_listen then
        { m1 with first_listen := a.first_listen }
      else m1
    else m1
  let m3 :=
    if a.last_listen ≠ "" then
      if m2.last_listen = "" ∨ pyLt m2.last_listen a.last_listen then
        { m2 with last_listen := a.last_listen }
      else m2
    else m2
  if ¬ truthy (m3.strava.lookup "strava_activity_id")
      ∧ truthy (a.strava.lookup "strava_activity_id") then
    { m3 with strava := dictSetAll m3.strava a.strava }
  else m3

/-- The per-field decomposition of one `merge_albums` fold step on a listen
timestamp: a non-empty incoming value replaces the current one when the
current one is empty or the incoming one is better according to `lt`
(`lt = pyLt` for first-listen, flipped for last-listen). -/
def betterStep (lt : String → String → Bool) (cur x : String) : String :=
  if x ≠ "" then (if cur = "" ∨ lt x cur then x else cur) else cur

/-- Stable insertion (descending by key): the new element passes every earlier
element with a strictly larger key and lands before the first element whose
key is not larger, exactly reproducing the order of Python's stable
`sorted(..., reverse=True)`. -/
def insDescBy (key : α → Nat) (x : α) : List α → List α
  | [] => [x]
  | y :: ys => if key x < key y then y :: insDescBy key x ys else x :: y :: ys

/-- Stable sort, descending by `key` (the behaviour of
`sorted(l, key=..., reverse=True)` and `l.sort(key=lambda x: -...)`). -/
def sortDescBy (key : α → Nat) : List α → List α
  | [] => []
  | x :: xs => insDescBy key x (sortDescBy key xs)

/-- `merge_albums` (`deduplicate_albums.py` lines 16-54): a singleton group is
returned as is; otherwise the group is sorted by play count descending, the
head becomes the merge base and the remaining records are folded into it.
The Python function indexes `sorted_albums[0]` and so cannot be called on an
empty group; that case is `none`. -/
def merge_albums (l : List Album) : Option Album :=
  match l with
  | [] => none
  | [a] => some a
  | x :: y :: tl =>
    match sortDescBy (fun z => z.play_count) (x :: y :: tl) with
    | [] => none
    | b :: rest => some (rest.foldl foldAlbum b)

/-- One step of the `album_groups` construction in `deduplicate_albums.main`
(lines 66-73): append the record to its name's group, creating the group at
the end on first occurrence (Python dicts preserve insertion order). -/
def addToGroups (acc : List (String × List Album)) (a : Album) :
    List (String × List Album) :=
  if acc.any (fun p => p.1 = a.album_name) then
    acc.map fun p =>
      if p.1 = a.album_name then (p.1, p.2 ++ [a]) else p
  else acc ++ [(a.album_name, [a])]

/-- `album_groups`: group records by `album_name`, keys in first-occurrence
order, each group in file order. -/
def groupByName (l : List Album) : List (String × List Album) :=
  l.foldl addToGroups []

/-- Well-formedness of a `groupByName` accumulator: group keys are pairwise
distinct, every group is non-empty, and every record sits in the group of its
own name. -/
def GroupsWF (acc : List (String × List Album)) : Prop :=
  (acc.map Prod.fst).Nodup
    ∧ ∀ p ∈ acc, p.2 ≠ [] ∧ ∀ a ∈ p.2, a.album_name = p.1

/-- The value-level effect of `deduplicate_albums.main` (lines 56-98) on the
`watch_albums` collection: when no name occurs twice the function returns
early and the collection is left untouched; otherwise every group is merged
and the result is sorted by play count descending. -/
def dedup_main (l : List Album) : List Album :=
  let groups := groupByName l
  if groups.all (fun p => p.2.length ≤ 1) then l
  else sortDescBy (fun x => x.play_count) (groups.filterMap fun p => merge_albums p.2)

/-! ### Starred restoration on report regeneration
(`analyze_music_watch.py`, `WatchAlbumAnalyzer.generate_report`) -/

/-- The `existing_starred` map built from the previously persisted report:
the names of the records whose `starred` field is truthy. -/
def starredNames (old : List Album) : List String :=
  (old.filter fun a => a.starred).map fun a => a.album_name

/-- `generate_report` lines 260-263: every freshly generated record whose name
appears in `existing_starred` gets `starred = True`. -/
def applyStarred (names : List String) (l : List Album) : List Album :=
  l.map fun a =>
    if names.contains a.album_name then { a with starred := true } else a

/-! ### Activity matcher (`fetch_strava_data.py`,
`find_matching_strava_activity`) -/

/-- A Strava activity as the matcher sees it: an identifier and the result of
`parse_iso_timestamp(activity.get('start_date'))`, in whole seconds;
`none` when the timestamp is absent or unparseable (the candidate is
skipped). -/
structure StravaActivity where
  id : Nat
  startDate : Option Int
deriving DecidableEq, Repr

/-- `abs((album_time - activity_start).total_seconds())` when the candidate
has a parseable start time. -/
def actDelta (t : Int) (a : StravaActivity) : Option Nat :=
  a.startDate.map fun s => (t - s).natAbs

/-- The scan loop of `find_matching_strava_activity` (lines 204-219): walk the
candidates carrying the best match and its delta (`none` encodes
`best_diff = inf`); a candidate replaces the best iff its delta is within
tolerance and strictly smaller than the best delta so far. -/
def findGo (t : Int) (tol : Nat) :
    List StravaActivity → Option (StravaActivity × Nat) →
      Option (StravaActivity × Nat)
  | [], best => best
  | a :: rest, best =>
    match actDelta t a with
    | none => findGo t tol rest best
    | some d =>
      match best with
      | none =>
        if d ≤ tol then findGo t tol rest (some (a, d))
        else findGo t tol rest none
      | some (b, bd) =>
        if d ≤ tol ∧ d < bd then findGo t tol rest (some (a, d))
        else findGo t tol rest (some (b, bd))

/-- `find_matching_strava_activity` (`fetch_strava_data.py` lines 186-221):
`none` when the reference timestamp itself fails to parse, otherwise the best
scan result with `tolerance_seconds = tolerance_minutes * 60`. -/
def find_matching (albumTime : Option Int) (acts : List StravaActivity)
    (tolMin : Nat) : Option StravaActivity :=
  match albumTime with
  | none => none
  | some t => (findGo t (tolMin * 60) acts none).map fun p => p.1

/-- A candidate qualifies when its start time parses and its delta to the
reference is within tolerance. -/
def qualifies (t : Int) (tol : Nat) (a : StravaActivity) : Prop :=
  ∃ d, actDelta t a = some d ∧ d ≤ tol

instance (t : Int) (tol : Nat) (a : StravaActivity) :
    Decidable (qualifies t tol a) := by
  unfold qualifies; cases a.startDate <;> simp [actDelta] <;> infer_instance

/-! ### Speculative-match folding (`merge_maybe_data.py`, `main`) -/

/-- A raw JSON record as an insertion-ordered dict; all values rendered as
strings, since `merge_maybe_data.main` only moves them around. -/
abbrev JRec := List (String × String)

/-- Python's `key in dict`. -/
def hasKey (r : JRec) (k : String) : Bool :=
  r.any fun p => p.1 = k

/-- The strava fields copied onto an existing album
(`merge_maybe_data.py` lines 66-68). -/
def stravaCopyKeys : List String :=
  ["strava_activity_id", "strava_activity_name", "strava_start_date",
   "strava_distance_miles", "strava_moving_time_seconds"]

/-- The collision branch of `merge_maybe_data.main` (lines 58-73) applied to
the matching existing record: when the record already has a
`strava_activity_id` key nothing happens; otherwise each of the five strava
keys present in the speculative record is written into it. -/
def updateExisting (existing maybeA : JRec) : JRec :=
  if hasKey existing "strava_activity_id" then existing
  else
    stravaCopyKeys.foldl
      (fun acc k =>
        match maybeA.lookup k with
        | some v => dictSet acc k v
        | none => acc)
      existing

/-- Update the first existing record with the colliding name (the loop over
`existing_albums` with its `break`). -/
def updateFirst (name : String) (m : JRec) : List JRec → List JRec
  | [] => []
  | e :: rest =>
    if e.lookup "album_name" = some name then updateExisting e m :: rest
    else e :: updateFirst name m rest

/-- One iteration of the `for maybe_album in maybe_albums` loop
(`merge_maybe_data.py` lines 53-103) on the album collection: a colliding name
updates the first matching existing record and discards the speculative
record (`continue`); otherwise the transformed speculative record is
appended. `transform` stands for the field rewriting applied before the
append (confidence dropped, track counts rewritten, starred added). -/
def processMaybe (transform : JRec → JRec) (existings : List JRec)
    (maybeA : JRec) : List JRec :=
  let name := (maybeA.lookup "album_name").getD ""
  if existings.any (fun e => e.lookup "album_name" = some name) then
    updateFirst name maybeA existings
  else existings ++ [transform maybeA]

/-- The local variable names bound in `merge_maybe_data.main` by the time the
final summary executes (lines 124-133), from the assignments in the source;
the loop-body temporaries are omitted since they are unbound when
`maybe_albums` is empty. -/
def mergeMaybeMainVars : List String :=
  ["data", "existing_albums", "existing_completed", "maybe_data",
   "maybe_albums", "added_count", "skipped_count", "existing_album_names",
   "albums_with_strava", "albums_with_artist", "albums_with_genre"]

/-- Python name resolution: reading a name not bound in the environment
raises `NameError`. -/
def lookupVar (env : List String) (v : String) : Except String Unit :=
  if env.contains v then .ok () else
    .error ("NameError: name " ++ v ++ " is not defined")

/-- The names read by the summary prints at the end of
`merge_maybe_data.main` (lines 124-133), in order; evaluation stops at the
first unbound name, as Python does. -/
def mergeMaybeSummary (env : List String) : Except String Unit := do
  _ ← lookupVar env "added_count"
  _ ← lookupVar env "skipped_count"
  _ ← lookupVar env "existing_albums"
  _ ← lookupVar env "completed_albums"
  _ ← lookupVar env "albums_with_strava"
  .ok ()

/-! ### Watch report generation (`analyze_music_watch.py`,
`WatchAlbumAnalyzer.get_watch_albums`) -/

/-- The aggregation state of `WatchAlbumAnalyzer`, keyed by the normalized
album name. -/
structure WState where
  albumTracks : String → Finset String
  listenedTracks : String → Finset String
  playCounts : String → Nat
  firstListen : String → Option String
  lastListen : String → Option String
  albumToArtist : String → Option String

/-- One record of the `watch_albums` report. -/
structure WatchEntry where
  album_name : String
  artist_name : String
  total_tracks : Nat
  listened_tracks : Nat
  completion_percentage : ℚ
  play_count : Nat
  first_listen : String
  last_listen : String
  starred : Bool
deriving DecidableEq, Repr

/-- Python's `round(x, 1)` over the exact rational value (ties, which in
Python fall to the nearest even last digit of the float representation, do
not arise in any property stated below). -/
def roundQ1 (q : ℚ) : ℚ :=
  (round (q * 10) : ℤ) / 10

/-- The raw completion percentage `listened / total * 100`, `0` when the key
has no tracks. -/
def watchCompletion (s : WState) (name : String) : ℚ :=
  if 0 < (s.albumTracks name).card then
    ((s.listenedTracks name).card : ℚ) / ((s.albumTracks name).card : ℚ) * 100
  else 0

/-- `WatchAlbumAnalyzer.get_watch_albums` (`analyze_music_watch.py` lines
211-245): for each watch album (iteration order `keys`), compute the
completion percentage, silently skip the album when it is below 50, build the
report record with the rounded percentage and `starred = False`, and sort by
play count descending. -/
def get_watch_albums (s : WState) (keys : List String) : List WatchEntry :=
  sortDescBy (fun e => e.play_count)
    (keys.filterMap fun name =>
      let comp := watchCompletion s name
      if comp < 50 then none
      else
        some
          { album_name := name
            artist_name := (s.albumToArtist name).getD ""
            total_tracks := (s.albumTracks name).card
            listened_tracks := (s.listenedTracks name).card
            completion_percentage := roundQ1 comp
            play_count := s.playCounts name
            first_listen := (s.firstListen name).getD ""
            last_listen := (s.lastListen name).getD ""
            starred := false })

/-! ### Concrete instances used to exercise the theorems -/

/-- A watch-analyzer state with one album at exactly 50% completion and one
album at 0% completion. -/
def wStateA : WState :=
  { albumTracks := fun n =>
      if n = "A" then {"s1", "s2"} else if n = "B" then {"t1", "t2"} else ∅
    listenedTracks := fun n => if n = "A" then {"s1"} else ∅
    playCounts := fun _ => 3
    firstListen := fun _ => none
    lastListen := fun _ => none
    albumToArtist := fun _ => none }

/-- The report record `get_watch_albums wStateA ["A", "B"]` emits. -/
def entryA : WatchEntry :=
  { album_name := "A", artist_name := "", total_tracks := 2,
    listened_tracks := 1, completion_percentage := 50, play_count := 3,
    first_listen := "", last_listen := "", starred := false }

/-- A play-activity row whose album name carries the `" - Single"` suffix. -/
def rowSingle : Row :=
  { albumName := "Foo - Single", containerAlbumName := "", containerName := "",
    songName := "s", playDur := .num 60000, mediaDur := .num 60000,
    deviceType := "", deviceOS := "", deviceName := "",
    eventEnd := "", eventStart := "" }

/-- The same play as `rowSingle` with the bare album name. -/
def rowPlain : Row :=
  { albumName := "Foo", containerAlbumName := "", containerName := "",
    songName := "s", playDur := .num 60000, mediaDur := .num 60000,
    deviceType := "", deviceOS := "", deviceName := "",
    eventEnd := "", eventStart := "" }

/-- An album record without artist info, the higher play count of its group. -/
def albA : Album :=
  { album_name := "X", play_count := 2, starred := false,
    first_listen := "2020-01-02", last_listen := "2020-01-02",
    artist_name := none, genre := none, strava := [] }

/-- A duplicate of `albA`'s key carrying artist info, starred, lower play
count. -/
def albB : Album :=
  { album_name := "X", play_count := 1, starred := true,
    first_listen := "2020-01-01", last_listen := "2020-01-03",
    artist_name := some "Y", genre := some "Pop", strava := [] }

/-- `merge_albums [albA, albB]`: base `albA`, starred OR'd in, listen window
widened — and no artist or genre copied. -/
def albAB : Album :=
  { album_name := "X", play_count := 2, starred := true,
    first_listen := "2020-01-01", last_listen := "2020-01-03",
    artist_name := none, genre := none, strava := [] }

/-- An activity 45 minutes from the reference time `0`. -/
def act45 : StravaActivity := { id := 1, startDate := some 2700 }

/-- An activity 10 minutes before the reference time `0`. -/
def act10 : StravaActivity := { id := 2, startDate := some (-600) }

/-- An activity 200 minutes from the reference time `0`. -/
def act200 : StravaActivity := { id := 3, startDate := some 12000 }

/-- An activity one second beyond a 60-minute tolerance from reference `0`. -/
def act61 : StravaActivity := { id := 4, startDate := some 3601 }

/-- An activity exactly at a 60-minute tolerance from reference `0`. -/
def act60 : StravaActivity := { id := 5, startDate := some 3600 }

/-- An existing canonical record that already has a `strava_activity_id` but
no `strava_activity_name`. -/
def jrecE : JRec := [("album_name", "A"), ("strava_activity_id", "7")]

/-- A speculative match colliding with `jrecE`, carrying an activity name the
existing record lacks. -/
def jrecM : JRec :=
  [("album_name", "A"), ("strava_activity_id", "8"),
   ("strava_activity_name", "Morning Run")]

/-- An existing record with a `strava_distance_miles` value but no
`strava_activity_id`. -/
def jrecE0 : JRec := [("album_name", "A"), ("strava_distance_miles", "1")]

/-- A speculative match for `jrecE0` with a conflicting distance value. -/
def jrecM0 : JRec :=
  [("album_name", "A"), ("strava_activity_id", "8"),
   ("strava_distance_miles", "2")]

/-! ## Helper lemmas -/

theorem insDescBy_perm (key : α → Nat) (x : α) (l : List α) :
    List.Perm (insDescBy key x l) (x :: l) := by
  induction l with
  | nil => simp [insDescBy]
  | cons y ys ih =>
    rw [insDescBy]
    by_cases h : key x < key y
    · simp only [h, if_true]
      exact (ih.cons y).trans (List.Perm.swap x y ys)
    · simp [h]

theorem sortDescBy_perm (key : α → Nat) (l : List α) :
    List.Perm (sortDescBy key l) l := by
  induction l with
  | nil => simp [sortDescBy]
  | cons x xs ih =>
    exact (insDescBy_perm key x (sortDescBy key xs)).trans (ih.cons x)

theorem mem_sortDescBy {key : α → Nat} {l : List α} {y : α} :
    y ∈ sortDescBy key l ↔ y ∈ l :=
  (sortDescBy_perm key l).mem_iff

theorem insDescBy_pairwise (key : α → Nat) (x : α) (l : List α)
    (h : l.Pairwise (fun a b => key b ≤ key a)) :
    (insDescBy key x l).Pairwise (fun a b => key b ≤ key a) := by
  induction l with
  | nil => simp [insDescBy]
  | cons y ys ih =>
    rw [insDescBy]
    rcases List.pairwise_cons.mp h with ⟨hy, hys⟩
    by_cases hk : key x < key y
    · simp only [hk, if_true]
      refine List.pairwise_cons.mpr ⟨?_, ih hys⟩
      intro z hz
      rcases List.mem_cons.mp ((insDescBy_perm key x ys).mem_iff.mp hz) with rfl | hz'
      · exact Nat.le_of_lt hk
      · exact hy z hz'
    · simp only [hk, if_false]
      refine List.pairwise_cons.mpr ⟨?_, h⟩
      intro z hz
      rcases List.mem_cons.mp hz with rfl | hz'
      · exact Nat.le_of_not_lt hk
      · exact (hy z hz').trans (Nat.le_of_not_lt hk)

theorem sortDescBy_pairwise (key : α → Nat) (l : List α) :
    (sortDescBy key l).Pairwise (fun a b => key b ≤ key a) := by
  induction l with
  | nil => simp [sortDescBy]
  | cons x xs ih => exact insDescBy_pairwise key x _ ih

theorem roundQ1_ge_50 {q : ℚ} (h : 50 ≤ q) : 50 ≤ roundQ1 q := by
  unfold roundQ1
  have h500 : (500 : ℤ) ≤ round (q * 10) := by
    rw [round_eq]
    have hf : ((500 : ℤ) : ℚ) ≤ q * 10 + 1 / 2 := by push_cast; linarith
    calc (500 : ℤ) = ⌊((500 : ℤ) : ℚ)⌋ := (Int.floor_intCast 500).symm
      _ ≤ ⌊q * 10 + 1 / 2⌋ := Int.floor_mono hf
  have : ((500 : ℤ) : ℚ) ≤ ((round (q * 10) : ℤ) : ℚ) := by exact_mod_cast h500
  push_cast at this ⊢
  linarith

theorem lexLtL_irrefl (l : List Char) : lexLtL l l = false := by
  induction l with
  | nil => rfl
  | cons a as ih => simp [lexLtL, ih]

theorem lexLtL_trans (a b c : List Char) (h1 : lexLtL a b = true)
    (h2 : lexLtL b c = true) : lexLtL a c = true := by
  induction a generalizing b c with
  | nil =>
    cases b with
    | nil => exact absurd h1 (by simp [lexLtL])
    | cons y ys =>
      cases c with
      | nil => exact absurd h2 (by simp [lexLtL])
      | cons z zs => simp [lexLtL]
  | cons x xs ih =>
    cases b with
    | nil => exact absurd h1 (by simp [lexLtL])
    | cons y ys =>
      cases c with
      | nil => exact absurd h2 (by simp [lexLtL])
      | cons z zs =>
        simp only [lexLtL, Bool.or_eq_true, Bool.and_eq_true,
          decide_eq_true_eq] at h1 h2 ⊢
        rcases h1 with h1 | ⟨rfl, h1⟩
        · rcases h2 with h2 | ⟨rfl, _⟩
          · exact Or.inl (lt_trans h1 h2)
          · exact Or.inl h1
        · rcases h2 with h2 | ⟨rfl, h2⟩
          · exact Or.inl h2
          · exact Or.inr ⟨rfl, ih ys zs h1 h2⟩

theorem lexLtL_trichotomy (a b : List Char) :
    lexLtL a b = true ∨ a = b ∨ lexLtL b a = true := by
  induction a generalizing b with
  | nil => cases b <;> simp [lexLtL]
  | cons x xs ih =>
    cases b with
    | nil => simp [lexLtL]
    | cons y ys =>
      rcases lt_trichotomy x y with h | rfl | h
      · exact Or.inl (by simp [lexLtL, h])
      · rcases ih ys with h2 | rfl | h2
        · exact Or.inl (by simp [lexLtL, h2])
        · exact Or.inr (Or.inl rfl)
        · exact Or.inr (Or.inr (by simp [lexLtL, h2]))
      · exact Or.inr (Or.inr (by simp [lexLtL, h]))

theorem pyLt_irrefl (s : String) : pyLt s s = false :=
  lexLtL_irrefl s.data

theorem pyLt_trans (a b c : String) (h1 : pyLt a b = true)
    (h2 : pyLt b c = true) : pyLt a c = true :=
  lexLtL_trans a.data b.data c.data h1 h2

theorem pyLt_trichotomy (a b : String) :
    pyLt a b = true ∨ a = b ∨ pyLt b a = true := by
  rcases lexLtL_trichotomy a.data b.data with h | h | h
  · exact Or.inl h
  · refine Or.inr (Or.inl ?_)
    cases a; cases b
    exact congrArg String.mk h
  · exact Or.inr (Or.inr h)

theorem pyLt_flip_trichotomy (a b : String) :
    (fun s t => pyLt t s) a b = true ∨ a = b ∨ (fun s t => pyLt t s) b a = true := by
  rcases pyLt_trichotomy a b with h | h | h
  · exact Or.inr (Or.inr h)
  · exact Or.inr (Or.inl h)
  · exact Or.inl h

theorem betterStep_eq_or (lt : String → String → Bool) (cur x : String) :
    betterStep lt cur x = cur ∨ betterStep lt cur x = x := by
  unfold betterStep
  split_ifs <;> simp

theorem betterStep_empty_iff (lt : String → String → Bool) (cur x : String) :
    betterStep lt cur x = "" ↔ (cur = "" ∧ x = "") := by
  unfold betterStep
  split_ifs with h1 h2
  · exact ⟨fun h => absurd h h1, fun h => absurd h.2 h1⟩
  · have hcur : cur ≠ "" := fun hc => h2 (Or.inl hc)
    exact ⟨fun h => absurd h hcur, fun h => absurd h.1 hcur⟩
  · have hx : x = "" := not_not.mp h1
    simp [hx]

theorem betterStep_foldl_spec (lt : String → String → Bool)
    (hirr : ∀ s, lt s s = false)
    (htrans : ∀ a b c, lt a b = true → lt b c = true → lt a c = true)
    (htotal : ∀ a b, lt a b = true ∨ a = b ∨ lt b a = true)
    (l : List String) (c : String) :
    (l.foldl (betterStep lt) c = c ∨ l.foldl (betterStep lt) c ∈ l)
    ∧ (l.foldl (betterStep lt) c = "" ↔ (c = "" ∧ ∀ x ∈ l, x = ""))
    ∧ (c ≠ "" → lt c (l.foldl (betterStep lt) c) = false)
    ∧ (∀ x ∈ l, x ≠ "" → lt x (l.foldl (betterStep lt) c) = false) := by
  induction l generalizing c with
  | nil =>
    exact ⟨Or.inl rfl, by simp, fun _ => hirr c, by simp⟩
  | cons x tl ih =>
    obtain ⟨ihmem, ihempty, ihc, ihall⟩ := ih (betterStep lt c x)
    simp only [List.foldl_cons]
    refine ⟨?_, ?_, ?_, ?_⟩
    · rcases ihmem with h | h
      · rcases betterStep_eq_or lt c x with h2 | h2
        · exact Or.inl (h.trans h2)
        · exact Or.inr (by rw [h, h2]; exact List.mem_cons_self x tl)
      · exact Or.inr (List.mem_cons_of_mem x h)
    · rw [ihempty, betterStep_empty_iff]
      constructor
      · rintro ⟨⟨hc, hx⟩, hall⟩
        refine ⟨hc, ?_⟩
        intro y hy
        rcases List.mem_cons.mp hy with rfl | hy
        · exact hx
        · exact hall y hy
      · rintro ⟨hc, hall⟩
        exact ⟨⟨hc, hall x (List.mem_cons_self x tl)⟩,
          fun y hy => hall y (List.mem_cons_of_mem x hy)⟩
    · intro hc
      by_cases hx : x = ""
      · have hcc : betterStep lt c x = c := by
          unfold betterStep; simp [hx]
        rw [hcc] at ihc ⊢
        exact ihc hc
      · by_cases hrep : c = "" ∨ lt x c = true
        · have hcx : betterStep lt c x = x := by
            unfold betterStep; rw [if_pos hx, if_pos hrep]
          have hlt : lt x c = true := by
            rcases hrep with h | h
            · exact absurd h hc
            · exact h
          rw [hcx] at ihc ⊢
          have hxR := ihc hx
          cases hcr : lt c (List.foldl (betterStep lt) x tl) with
          | false => rfl
          | true =>
            exact absurd (htrans x c _ hlt hcr) (by simp [hxR])
        · have hcc : betterStep lt c x = c := by
            unfold betterStep; rw [if_pos hx, if_neg hrep]
          rw [hcc] at ihc ⊢
          exact ihc hc
    · intro y hy hyne
      rcases List.mem_cons.mp hy with rfl | hytl
      · by_cases hrep : c = "" ∨ lt y c = true
        · have hcx : betterStep lt c y = y := by
            unfold betterStep; rw [if_pos hyne, if_pos hrep]
          rw [hcx] at ihc ⊢
          exact ihc hyne
        · have hcc : betterStep lt c y = c := by
            unfold betterStep; rw [if_pos hyne, if_neg hrep]
          have hc : c ≠ "" := fun h => hrep (Or.inl h)
          have hyc : lt y c = false := by
            cases h : lt y c with
            | false => rfl
            | true => exact absurd (Or.inr h) hrep
          rw [hcc] at ihc ⊢
          have hcR := ihc hc
          cases h : lt y (List.foldl (betterStep lt) c tl) with
          | false => rfl
          | true =>
            rcases htotal c (List.foldl (betterStep lt) c tl) with h2 | h2 | h2
            · exact absurd h2 (by simp [hcR])
            · rw [← h2] at h
              exact absurd h (by simp [hyc])
            · exact absurd (htrans y _ c h h2) (by simp [hyc])
      · exact ihall y hytl hyne

theorem foldAlbum_starred (m a : Album) :
    (foldAlbum m a).starred = (m.starred || a.starred) := by
  unfold foldAlbum
  by_cases ha : a.starred <;>
    simp [ha, apply_ite Album.starred, apply_ite Album.last_listen,
      apply_ite Album.first_listen, apply_ite Album.strava]

theorem foldAlbum_body_fixed (m a : Album) :
    (foldAlbum m a).album_name = m.album_name
    ∧ (foldAlbum m a).play_count = m.play_count
    ∧ (foldAlbum m a).artist_name = m.artist_name
    ∧ (foldAlbum m a).genre = m.genre := by
  unfold foldAlbum
  simp [apply_ite Album.album_name, apply_ite Album.play_count,
    apply_ite Album.artist_name, apply_ite Album.genre,
    apply_ite Album.last_listen, apply_ite Album.first_listen,
    apply_ite Album.strava]

theorem foldl_foldAlbum_starred (l : List Album) (m : Album) :
    (l.foldl foldAlbum m).starred = (m.starred || l.any fun x => x.starred) := by
  induction l generalizing m with
  | nil => simp
  | cons a tl ih =>
    simp [List.foldl_cons, ih, foldAlbum_starred, Bool.or_assoc]

theorem foldl_foldAlbum_body_fixed (l : List Album) (m : Album) :
    (l.foldl foldAlbum m).album_name = m.album_name
    ∧ (l.foldl foldAlbum m).play_count = m.play_count
    ∧ (l.foldl foldAlbum m).artist_name = m.artist_name
    ∧ (l.foldl foldAlbum m).genre = m.genre := by
  induction l generalizing m with
  | nil => simp
  | cons a tl ih =>
    have h := foldAlbum_body_fixed m a
    have h2 := ih (foldAlbum m a)
    simp only [List.foldl_cons]
    exact ⟨h2.1.trans h.1, h2.2.1.trans h.2.1, h2.2.2.1.trans h.2.2.1,
      h2.2.2.2.trans h.2.2.2⟩

theorem foldAlbum_first_listen (m a : Album) :
    (foldAlbum m a).first_listen
      = betterStep pyLt m.first_listen a.first_listen := by
  unfold foldAlbum betterStep
  simp [apply_ite Album.first_listen, apply_ite Album.last_listen,
    apply_ite Album.strava, apply_ite Album.starred]

theorem foldAlbum_last_listen (m a : Album) :
    (foldAlbum m a).last_listen
      = betterStep (fun s t => pyLt t s) m.last_listen a.last_listen := by
  unfold foldAlbum betterStep
  simp [apply_ite Album.first_listen, apply_ite Album.last_listen,
    apply_ite Album.strava, apply_ite Album.starred]

theorem foldl_foldAlbum_first_listen (l : List Album) (m : Album) :
    (l.foldl foldAlbum m).first_listen
      = (l.map fun a => a.first_listen).foldl (betterStep pyLt)
          m.first_listen := by
  induction l generalizing m with
  | nil => rfl
  | cons a tl ih => simp [List.foldl_cons, ih, foldAlbum_first_listen]

theorem foldl_foldAlbum_last_listen (l : List Album) (m : Album) :
    (l.foldl foldAlbum m).last_listen
      = (l.map fun a => a.last_listen).foldl
          (betterStep fun s t => pyLt t s) m.last_listen := by
  induction l generalizing m with
  | nil => rfl
  | cons a tl ih => simp [List.foldl_cons, ih, foldAlbum_last_listen]

theorem foldAlbum_strava_of_truthy (m a : Album)
    (h : truthy (m.strava.lookup "strava_activity_id") = true) :
    (foldAlbum m a).strava = m.strava := by
  unfold foldAlbum
  simp [apply_ite Album.strava, apply_ite Album.first_listen,
    apply_ite Album.last_listen, apply_ite Album.starred, h]

theorem foldAlbum_strava_no_donor (m a : Album)
    (h : truthy (a.strava.lookup "strava_activity_id") = false) :
    (foldAlbum m a).strava = m.strava := by
  unfold foldAlbum
  simp [apply_ite Album.strava, apply_ite Album.first_listen,
    apply_ite Album.last_listen, apply_ite Album.starred, h]

theorem foldl_foldAlbum_strava_of_truthy (l : List Album) (m : Album)
    (h : truthy (m.strava.lookup "strava_activity_id") = true) :
    (l.foldl foldAlbum m).strava = m.strava := by
  induction l generalizing m with
  | nil => rfl
  | cons a tl ih =>
    have hstep := foldAlbum_strava_of_truthy m a h
    rw [List.foldl_cons, ih (foldAlbum m a) (by rw [hstep]; exact h), hstep]

theorem foldl_foldAlbum_strava_no_donors (l : List Album) (m : Album)
    (h : ∀ a ∈ l, truthy (a.strava.lookup "strava_activity_id") = false) :
    (l.foldl foldAlbum m).strava = m.strava := by
  induction l generalizing m with
  | nil => rfl
  | cons a tl ih =>
    have hstep := foldAlbum_strava_no_donor m a (h a (List.mem_cons_self a tl))
    rw [List.foldl_cons, ih (foldAlbum m a)
      (fun x hx => h x (List.mem_cons_of_mem a hx)), hstep]

theorem sortDescBy_ne_nil {key : α → Nat} {x : α} {l : List α} :
    sortDescBy key (x :: l) ≠ [] := by
  intro h
  have := (sortDescBy_perm key (x :: l)).length_eq
  rw [h] at this
  simp at this

theorem addToGroups_wf (acc : List (String × List Album)) (a : Album)
    (h : GroupsWF acc) : GroupsWF (addToGroups acc a) := by
  obtain ⟨hkeys, hmem⟩ := h
  rw [addToGroups]
  by_cases hany : acc.any (fun p => p.1 = a.album_name) = true
  · rw [if_pos hany]
    constructor
    · have : ((acc.map fun p =>
          if p.1 = a.album_name then (p.1, p.2 ++ [a]) else p).map Prod.fst)
          = acc.map Prod.fst := by
        rw [List.map_map]
        refine List.map_congr_left ?_
        intro p _
        by_cases hp : p.1 = a.album_name <;> simp [hp]
      rw [this]
      exact hkeys
    · intro p hp
      rcases List.mem_map.mp hp with ⟨q, hq, hqe⟩
      by_cases hqa : q.1 = a.album_name
      · rw [if_pos hqa] at hqe
        rw [← hqe]
        refine ⟨by simp, ?_⟩
        intro x hx
        rcases List.mem_append.mp hx with hx | hx
        · exact (hmem q hq).2 x hx
        · rw [List.mem_singleton.mp hx, hqa]
      · rw [if_neg hqa] at hqe
        rw [← hqe]
        exact hmem q hq
  · rw [if_neg hany]
    constructor
    · rw [List.map_append]
      refine List.Nodup.append hkeys (by simp) ?_
      intro s hs hs2
      rcases List.mem_map.mp hs with ⟨q, hq, hqe⟩
      simp only [List.map_cons, List.map_nil, List.mem_singleton] at hs2
      apply hany
      refine List.any_eq_true.mpr ⟨q, hq, ?_⟩
      rw [decide_eq_true_eq, hqe, hs2]
    · intro p hp
      rcases List.mem_append.mp hp with hp | hp
      · exact hmem p hp
      · rw [List.mem_singleton.mp hp]
        exact ⟨by simp, by simp⟩

theorem groupByName_wf (l : List Album) : GroupsWF (groupByName l) := by
  rw [groupByName]
  have : ∀ acc, GroupsWF acc → GroupsWF (l.foldl addToGroups acc) := by
    induction l with
    | nil => intro acc h; exact h
    | cons a tl ih =>
      intro acc h
      rw [List.foldl_cons]
      exact ih _ (addToGroups_wf acc a h)
  exact this [] ⟨List.nodup_nil, by simp⟩

theorem merge_albums_some_of_ne_nil (grp : List Album) (hne : grp ≠ []) :
    ∃ m, merge_albums grp = some m := by
  match grp with
  | [] => exact absurd rfl hne
  | [x] => exact ⟨x, rfl⟩
  | x :: y :: tl =>
    rw [merge_albums]
    cases hs : sortDescBy (fun z => z.play_count) (x :: y :: tl) with
    | nil => exact absurd hs sortDescBy_ne_nil
    | cons b rest => exact ⟨rest.foldl foldAlbum b, rfl⟩

theorem merge_albums_name (grp : List Album) (n : String) (m : Album)
    (hnames : ∀ a ∈ grp, a.album_name = n)
    (hm : merge_albums grp = some m) : m.album_name = n := by
  match grp with
  | [] => exact absurd hm (by rw [merge_albums]; exact Option.noConfusion)
  | [x] =>
    rw [merge_albums] at hm
    rw [← Option.some.inj hm]
    exact hnames x (List.mem_singleton.mpr rfl)
  | x :: y :: tl =>
    rw [merge_albums] at hm
    cases hs : sortDescBy (fun z => z.play_count) (x :: y :: tl) with
    | nil => exact absurd hs sortDescBy_ne_nil
    | cons b rest =>
      rw [hs] at hm
      rw [← Option.some.inj hm, (foldl_foldAlbum_body_fixed rest b).1]
      have hbmem : b ∈ sortDescBy (fun z => z.play_count) (x :: y :: tl) := by
        rw [hs]
        exact List.mem_cons_self b rest
      exact hnames b (mem_sortDescBy.mp hbmem)

theorem filterMap_merge_names (G : List (String × List Album))
    (h : ∀ p ∈ G, p.2 ≠ [] ∧ ∀ a ∈ p.2, a.album_name = p.1) :
    (G.filterMap fun p => merge_albums p.2).map (fun m => m.album_name)
      = G.map Prod.fst := by
  induction G with
  | nil => rfl
  | cons p G' ih =>
    obtain ⟨hne, hnames⟩ := h p (List.mem_cons_self p G')
    obtain ⟨m, hm⟩ := merge_albums_some_of_ne_nil p.2 hne
    rw [List.filterMap_cons, hm, List.map_cons, List.map_cons,
      merge_albums_name p.2 p.1 m hnames hm,
      ih (fun q hq => h q (List.mem_cons_of_mem p hq))]

theorem foldl_addToGroups_singletons (l : List Album)
    (acc : List (String × List Album))
    (hacc : ∀ p ∈ acc, p.2.length ≤ 1)
    (hdisj : ∀ a ∈ l, ∀ p ∈ acc, p.1 ≠ a.album_name)
    (hnodup : (l.map fun a => a.album_name).Nodup) :
    ∀ p ∈ l.foldl addToGroups acc, p.2.length ≤ 1 := by
  induction l generalizing acc with
  | nil => exact hacc
  | cons a tl ih =>
    rw [List.map_cons, List.nodup_cons] at hnodup
    rw [List.foldl_cons]
    have hany : acc.any (fun p => p.1 = a.album_name) = false := by
      cases hq : acc.any (fun p => p.1 = a.album_name) with
      | false => rfl
      | true =>
        rcases List.any_eq_true.mp hq with ⟨p, hp, hpe⟩
        exact absurd (decide_eq_true_eq.mp hpe)
          (hdisj a (List.mem_cons_self a tl) p hp)
    have hstep : addToGroups acc a = acc ++ [(a.album_name, [a])] := by
      rw [addToGroups, if_neg (by rw [hany]; exact Bool.false_ne_true)]
    rw [hstep]
    refine ih (acc ++ [(a.album_name, [a])]) ?_ ?_ hnodup.2
    · intro p hp
      rcases List.mem_append.mp hp with hp | hp
      · exact hacc p hp
      · rw [List.mem_singleton.mp hp]
        simp
    · intro x hx p hp
      rcases List.mem_append.mp hp with hp | hp
      · exact hdisj x (List.mem_cons_of_mem a hx) p hp
      · rw [List.mem_singleton.mp hp]
        intro hcon
        have hmem : x.album_name ∈ tl.map fun y => y.album_name :=
          List.mem_map_of_mem _ hx
        rw [← hcon] at hmem
        exact absurd hmem hnodup.1

theorem groupByName_singletons (l : List Album)
    (h : (l.map fun a => a.album_name).Nodup) :
    ∀ p ∈ groupByName l, p.2.length ≤ 1 := by
  rw [groupByName]
  exact foldl_addToGroups_singletons l [] (by simp) (by simp) h

theorem dedup_main_of_nodup (L : List Album)
    (h : (L.map fun a => a.album_name).Nodup) : dedup_main L = L := by
  have hsing := groupByName_singletons L h
  rw [dedup_main]
  exact if_pos (List.all_eq_true.mpr
    (fun p hp => decide_eq_true (hsing p hp)))

theorem findGo_spec (t : Int) (tol : Nat) (l : List StravaActivity) :
    ∀ best : Option (StravaActivity × Nat),
    (∀ b bd, best = some (b, bd) → bd ≤ tol) →
    ((findGo t tol l best = none ↔ (best = none ∧
        ∀ a ∈ l, ∀ d, actDelta t a = some d → ¬ d ≤ tol))
     ∧ ∀ r dr, findGo t tol l best = some (r, dr) →
         dr ≤ tol
         ∧ (∀ a ∈ l, ∀ d, actDelta t a = some d → d ≤ tol → dr ≤ d)
         ∧ (best = some (r, dr)
            ∨ (∃ l1 l2, l = l1 ++ r :: l2 ∧ actDelta t r = some dr
                ∧ (∀ a ∈ l1, ∀ d, actDelta t a = some d → d ≤ tol → dr < d)
                ∧ ∀ b bd, best = some (b, bd) → dr < bd))) := by
  induction l with
  | nil =>
    intro best hbest
    constructor
    · rw [findGo]
      exact ⟨fun h => ⟨h, by simp⟩, fun h => h.1⟩
    · intro r dr h
      rw [findGo] at h
      exact ⟨hbest r dr h, by simp, Or.inl h⟩
  | cons a rest ih =>
    intro best hbest
    cases ha : actDelta t a with
    | none =>
      have hred : findGo t tol (a :: rest) best = findGo t tol rest best := by
        rw [findGo, ha]
      obtain ⟨ihn, ihs⟩ := ih best hbest
      constructor
      · rw [hred, ihn]
        constructor
        · rintro ⟨hb, hall⟩
          refine ⟨hb, ?_⟩
          intro x hx d hd
          rcases List.mem_cons.mp hx with rfl | hx
          · rw [ha] at hd
            exact absurd hd (by simp)
          · exact hall x hx d hd
        · rintro ⟨hb, hall⟩
          exact ⟨hb, fun x hx d hd => hall x (List.mem_cons_of_mem a hx) d hd⟩
      · intro r dr h
        rw [hred] at h
        obtain ⟨h1, h2, h3⟩ := ihs r dr h
        refine ⟨h1, ?_, ?_⟩
        · intro x hx d hd hdt
          rcases List.mem_cons.mp hx with rfl | hx
          · rw [ha] at hd
            exact absurd hd (by simp)
          · exact h2 x hx d hd hdt
        · rcases h3 with h3 | ⟨l1, l2, hsplit, hrd, hpre, hbb⟩
          · exact Or.inl h3
          · refine Or.inr ⟨a :: l1, l2, by rw [hsplit]; rfl, hrd, ?_, hbb⟩
            intro x hx d hd hdt
            rcases List.mem_cons.mp hx with rfl | hx
            · rw [ha] at hd
              exact absurd hd (by simp)
            · exact hpre x hx d hd hdt
    | some d =>
      cases best with
      | none =>
        by_cases hdt : d ≤ tol
        · have hred : findGo t tol (a :: rest) none
              = findGo t tol rest (some (a, d)) := by
            rw [findGo, ha]
            simp [hdt]
          obtain ⟨ihn, ihs⟩ := ih (some (a, d)) (by
            intro b bd hb
            have h5 : d = bd := congrArg Prod.snd (Option.some.inj hb)
            rw [← h5]
            exact hdt)
          constructor
          · rw [hred, ihn]
            constructor
            · rintro ⟨hcon, _⟩
              exact absurd hcon (by simp)
            · rintro ⟨_, hall⟩
              exact absurd hdt (hall a (List.mem_cons_self a rest) d ha)
          · intro r dr h
            rw [hred] at h
            obtain ⟨h1, h2, h3⟩ := ihs r dr h
            refine ⟨h1, ?_, ?_⟩
            · intro x hx e he het
              rcases List.mem_cons.mp hx with rfl | hx
              · rw [ha] at he
                cases Option.some.inj he
                rcases h3 with h3 | ⟨_, _, _, _, _, hbb⟩
                · exact le_of_eq (congrArg Prod.snd (Option.some.inj h3) :
                    d = dr).symm
                · exact le_of_lt (hbb _ d rfl)
              · exact h2 x hx e he het
            · rcases h3 with h3 | ⟨l1, l2, hsplit, hrd, hpre, hbb⟩
              · have hp := Option.some.inj h3
                have h4 : a = r := congrArg Prod.fst hp
                have h5 : d = dr := congrArg Prod.snd hp
                subst h4; subst h5
                exact Or.inr ⟨[], rest, rfl, ha, by simp,
                  fun b bd hb => absurd hb (by simp)⟩
              · refine Or.inr ⟨a :: l1, l2, by rw [hsplit]; rfl, hrd, ?_,
                  fun b bd hb => absurd hb (by simp)⟩
                intro x hx e he het
                rcases List.mem_cons.mp hx with rfl | hx
                · rw [ha] at he
                  cases Option.some.inj he
                  exact hbb _ d rfl
                · exact hpre x hx e he het
        · have hred : findGo t tol (a :: rest) none
              = findGo t tol rest none := by
            rw [findGo, ha]
            simp [hdt]
          obtain ⟨ihn, ihs⟩ := ih none (fun b bd hb => absurd hb (by simp))
          constructor
          · rw [hred, ihn]
            constructor
            · rintro ⟨_, hall⟩
              refine ⟨rfl, ?_⟩
              intro x hx e he
              rcases List.mem_cons.mp hx with rfl | hx
              · rw [ha] at he
                cases Option.some.inj he
                exact hdt
              · exact hall x hx e he
            · rintro ⟨_, hall⟩
              exact ⟨rfl, fun x hx e he =>
                hall x (List.mem_cons_of_mem a hx) e he⟩
          · intro r dr h
            rw [hred] at h
            obtain ⟨h1, h2, h3⟩ := ihs r dr h
            refine ⟨h1, ?_, ?_⟩
            · intro x hx e he het
              rcases List.mem_cons.mp hx with rfl | hx
              · rw [ha] at he
                cases Option.some.inj he
                exact absurd het hdt
              · exact h2 x hx e he het
            · rcases h3 with h3 | ⟨l1, l2, hsplit, hrd, hpre, hbb⟩
              · exact absurd h3 (by simp)
              · refine Or.inr ⟨a :: l1, l2, by rw [hsplit]; rfl, hrd, ?_,
                  fun b bd hb => absurd hb (by simp)⟩
                intro x hx e he het
                rcases List.mem_cons.mp hx with rfl | hx
                · rw [ha] at he
                  cases Option.some.inj he
                  exact absurd het hdt
                · exact hpre x hx e he het
      | some p =>
        obtain ⟨b, bd⟩ := p
        have hbd : bd ≤ tol := hbest b bd rfl
        by_cases hcond : d ≤ tol ∧ d < bd
        · have hred : findGo t tol (a :: rest) (some (b, bd))
              = findGo t tol rest (some (a, d)) := by
            rw [findGo, ha]
            simp [hcond]
          obtain ⟨ihn, ihs⟩ := ih (some (a, d)) (by
            intro b' bd' hb
            have h5 : d = bd' := congrArg Prod.snd (Option.some.inj hb)
            rw [← h5]
            exact hcond.1)
          constructor
          · rw [hred, ihn]
            constructor
            · rintro ⟨hcon, _⟩
              exact absurd hcon (by simp)
            · rintro ⟨hcon, _⟩
              exact absurd hcon (by simp)
          · intro r dr h
            rw [hred] at h
            obtain ⟨h1, h2, h3⟩ := ihs r dr h
            have hdrd : dr ≤ d := by
              rcases h3 with h3 | ⟨_, _, _, _, _, hbb⟩
              · exact le_of_eq (congrArg Prod.snd (Option.some.inj h3) :
                  d = dr).symm
              · exact le_of_lt (hbb _ d rfl)
            refine ⟨h1, ?_, ?_⟩
            · intro x hx e he het
              rcases List.mem_cons.mp hx with rfl | hx
              · rw [ha] at he
                cases Option.some.inj he
                exact hdrd
              · exact h2 x hx e he het
            · rcases h3 with h3 | ⟨l1, l2, hsplit, hrd, hpre, hbb⟩
              · have hp := Option.some.inj h3
                have h4 : a = r := congrArg Prod.fst hp
                have h5 : d = dr := congrArg Prod.snd hp
                subst h4; subst h5
                refine Or.inr ⟨[], rest, rfl, ha, by simp, ?_⟩
                intro b' bd' hb
                have h6 : bd = bd' := congrArg Prod.snd (Option.some.inj hb)
                rw [← h6]
                exact hcond.2
              · refine Or.inr ⟨a :: l1, l2, by rw [hsplit]; rfl, hrd, ?_, ?_⟩
                · intro x hx e he het
                  rcases List.mem_cons.mp hx with rfl | hx
                  · rw [ha] at he
                    cases Option.some.inj he
                    exact hbb _ d rfl
                  · exact hpre x hx e he het
                · intro b' bd' hb
                  have h6 : bd = bd' := congrArg Prod.snd (Option.some.inj hb)
                  rw [← h6]
                  exact lt_trans (hbb a d rfl) hcond.2
        · have hred : findGo t tol (a :: rest) (some (b, bd))
              = findGo t tol rest (some (b, bd)) := by
            rw [findGo, ha]
            simp [hcond]
          obtain ⟨ihn, ihs⟩ := ih (some (b, bd)) hbest
          constructor
          · rw [hred, ihn]
            constructor
            · rintro ⟨hcon, _⟩
              exact absurd hcon (by simp)
            · rintro ⟨hcon, _⟩
              exact absurd hcon (by simp)
          · intro r dr h
            rw [hred] at h
            obtain ⟨h1, h2, h3⟩ := ihs r dr h
            have hdrbd : dr ≤ bd := by
              rcases h3 with h3 | ⟨_, _, _, _, _, hbb⟩
              · exact le_of_eq (congrArg Prod.snd (Option.some.inj h3) :
                  bd = dr).symm
              · exact le_of_lt (hbb b bd rfl)
            refine ⟨h1, ?_, ?_⟩
            · intro x hx e he het
              rcases List.mem_cons.mp hx with rfl | hx
              · rw [ha] at he
                cases Option.some.inj he
                have hbde : bd ≤ d := Nat.le_of_not_lt fun hlt =>
                  hcond ⟨het, hlt⟩
                exact le_trans hdrbd hbde
              · exact h2 x hx e he het
            · rcases h3 with h3 | ⟨l1, l2, hsplit, hrd, hpre, hbb⟩
              · exact Or.inl h3
              · refine Or.inr ⟨a :: l1, l2, by rw [hsplit]; rfl, hrd, ?_, hbb⟩
                intro x hx e he het
                rcases List.mem_cons.mp hx with rfl | hx
                · rw [ha] at he
                  cases Option.some.inj he
                  have hbde : bd ≤ d := Nat.le_of_not_lt fun hlt =>
                    hcond ⟨het, hlt⟩
                  exact lt_of_lt_of_le (hbb b bd rfl) hbde
                · exact hpre x hx e he het

theorem updFin_apply (f : AlbumKey → Finset String) (k : AlbumKey)
    (v : String) (k2 : AlbumKey) :
    updFin f k v k2 = if k2 = k then insert v (f k2) else f k2 := rfl

theorem processRow_subset (s : AggState) (r : Row)
    (h : ∀ k, s.listenedTracks k ⊆ s.albumTracks k) :
    ∀ k, (processRow s r).listenedTracks k ⊆ (processRow s r).albumTracks k := by
  intro k
  rw [processRow]
  by_cases hskip : (get_album_key r).1 = "" ∨ pyStrip r.songName = ""
  · rw [if_pos hskip]
    exact h k
  · rw [if_neg hskip]
    by_cases hlis : is_track_listened r.playDur r.mediaDur = true
    · simp only [hlis, if_true]
      intro x hx
      rw [updFin_apply] at hx ⊢
      by_cases hk : k = get_album_key r
      · rw [if_pos hk] at hx ⊢
        rcases Finset.mem_insert.mp hx with rfl | hx
        · exact Finset.mem_insert_self _ _
        · exact Finset.mem_insert_of_mem (h k hx)
      · rw [if_neg hk] at hx ⊢
        exact h k hx
    · simp only [hlis, if_false]
      intro x hx
      rw [updFin_apply]
      by_cases hk : k = get_album_key r
      · rw [if_pos hk]
        exact Finset.mem_insert_of_mem (h k hx)
      · rw [if_neg hk]
        exact h k hx

theorem processAll_subset (rows : List Row) :
    ∀ k, (processAll rows).listenedTracks k ⊆ (processAll rows).albumTracks k := by
  rw [processAll]
  have : ∀ s, (∀ k, s.listenedTracks k ⊆ s.albumTracks k) →
      ∀ k, (rows.foldl processRow s).listenedTracks k
        ⊆ (rows.foldl processRow s).albumTracks k := by
    induction rows with
    | nil => intro s h; exact h
    | cons r tl ih =>
      intro s h
      rw [List.foldl_cons]
      exact ih (processRow s r) (processRow_subset s r h)
  refine this initAgg ?_
  intro k
  exact Finset.Subset.refl _

theorem lookup_mapSet (mm : List (String × String)) (k v : String)
    (hany : mm.any (fun p => p.1 = k) = true) :
    (mm.map fun p => if p.1 = k then (k, v) else p).lookup k = some v := by
  induction mm with
  | nil => exact absurd hany (by simp)
  | cons p tl ih =>
    by_cases hp : p.1 = k
    · rw [List.map_cons, if_pos hp]
      simp [List.lookup]
    · rw [List.map_cons, if_neg hp]
      have hany' : tl.any (fun p => p.1 = k) = true := by
        rcases List.any_eq_true.mp hany with ⟨q, hq, hqe⟩
        rcases List.mem_cons.mp hq with rfl | hq
        · exact absurd (decide_eq_true_eq.mp hqe) hp
        · exact List.any_eq_true.mpr ⟨q, hq, hqe⟩
      have hne : (k == p.1) = false :=
        beq_eq_false_iff_ne.mpr fun h => hp h.symm
      simp [List.lookup, hne, ih hany']

theorem lookup_mapSet_other (mm : List (String × String)) (k v k2 : String)
    (h : k2 ≠ k) :
    (mm.map fun p => if p.1 = k then (k, v) else p).lookup k2
      = mm.lookup k2 := by
  induction mm with
  | nil => rfl
  | cons p tl ih =>
    by_cases hp : p.1 = k
    · rw [List.map_cons, if_pos hp]
      have h1 : (k2 == k) = false := beq_eq_false_iff_ne.mpr h
      have h2 : (k2 == p.1) = false := beq_eq_false_iff_ne.mpr (hp ▸ h)
      simp [List.lookup, h1, h2, ih]
    · rw [List.map_cons, if_neg hp]
      by_cases hk2 : k2 = p.1
      · simp [List.lookup, hk2]
      · have h2 : (k2 == p.1) = false := beq_eq_false_iff_ne.mpr hk2
        simp [List.lookup, h2, ih]

theorem lookup_append_single (mm : List (String × String)) (k v k2 : String)
    (h : k2 ≠ k) :
    (mm ++ [(k, v)]).lookup k2 = mm.lookup k2 := by
  induction mm with
  | nil =>
    have h1 : (k2 == k) = false := beq_eq_false_iff_ne.mpr h
    simp [List.lookup, h1]
  | cons p tl ih =>
    by_cases hk2 : k2 = p.1
    · simp [List.lookup, hk2]
    · have h2 : (k2 == p.1) = false := beq_eq_false_iff_ne.mpr hk2
      simp [List.lookup, h2, ih]

theorem dictSet_lookup_eq (mm : List (String × String)) (k v : String) :
    (dictSet mm k v).lookup k = some v := by
  rw [dictSet]
  by_cases hany : mm.any (fun p => p.1 = k) = true
  · rw [if_pos hany]
    exact lookup_mapSet mm k v hany
  · rw [if_neg hany]
    induction mm with
    | nil => simp [List.lookup]
    | cons p tl ih =>
      have hp : p.1 ≠ k := by
        intro hcon
        exact hany (List.any_eq_true.mpr
          ⟨p, List.mem_cons_self p tl, decide_eq_true hcon⟩)
      have hany' : ¬ tl.any (fun p => p.1 = k) = true := by
        intro hcon
        rcases List.any_eq_true.mp hcon with ⟨q, hq, hqe⟩
        exact hany (List.any_eq_true.mpr ⟨q, List.mem_cons_of_mem p hq, hqe⟩)
      have hne : (k == p.1) = false :=
        beq_eq_false_iff_ne.mpr fun hcon => hp hcon.symm
      simp [List.lookup, hne, ih hany']

theorem dictSet_lookup_other (mm : List (String × String)) (k v k2 : String)
    (h : k2 ≠ k) :
    (dictSet mm k v).lookup k2 = mm.lookup k2 := by
  rw [dictSet]
  by_cases hany : mm.any (fun p => p.1 = k) = true
  · rw [if_pos hany]
    exact lookup_mapSet_other mm k v k2 h
  · rw [if_neg hany]
    exact lookup_append_single mm k v k2 h

theorem foldl_copy_lookup (m : JRec) (ks : List String) :
    ks.Nodup → ∀ (acc : JRec) (k : String),
    (ks.foldl (fun acc k2 =>
        match m.lookup k2 with
        | some v => dictSet acc k2 v
        | none => acc) acc).lookup k
      = if k ∈ ks ∧ (m.lookup k).isSome = true then m.lookup k
        else acc.lookup k := by
  induction ks with
  | nil =>
    intro _ acc k
    simp
  | cons k1 ks' ih =>
    intro hnodup acc k
    have hnd := List.nodup_cons.mp hnodup
    rw [List.foldl_cons, ih hnd.2]
    by_cases hk : k = k1
    · subst hk
      cases hm : m.lookup k with
      | some v =>
        rw [if_neg fun hcon => hnd.1 hcon.1]
        simp only [hm]
        rw [dictSet_lookup_eq]
        rw [if_pos ⟨List.mem_cons_self k ks', rfl⟩]
      | none =>
        rw [if_neg fun hcon => by simp [hm] at hcon]
        rw [if_neg fun hcon => by simp [hm] at hcon]
    · cases hm1 : m.lookup k1 with
      | some v =>
        simp only [hm1]
        rw [dictSet_lookup_other acc k1 v k hk]
        by_cases hcond : k ∈ ks' ∧ (m.lookup k).isSome = true
        · rw [if_pos hcond,
            if_pos ⟨List.mem_cons_of_mem k1 hcond.1, hcond.2⟩]
        · rw [if_neg hcond, if_neg fun hcon =>
            hcond ⟨(List.mem_cons.mp hcon.1).resolve_left hk, hcon.2⟩]
      | none =>
        simp only [hm1]
        by_cases hcond : k ∈ ks' ∧ (m.lookup k).isSome = true
        · rw [if_pos hcond,
            if_pos ⟨List.mem_cons_of_mem k1 hcond.1, hcond.2⟩]
        · rw [if_neg hcond, if_neg fun hcon =>
            hcond ⟨(List.mem_cons.mp hcon.1).resolve_left hk, hcon.2⟩]

theorem updateFirst_length (name : String) (m : JRec) (l : List JRec) :
    (updateFirst name m l).length = l.length := by
  induction l with
  | nil => rfl
  | cons e rest ih =>
    rw [updateFirst]
    split_ifs <;> simp [ih]

/-! ## Claim theorems -/

/-- C3: the starred flag is monotone under OR-semantics — whenever any record
of a merge group is starred, `merge_albums` yields a starred record, whatever
the order of the group (the group enters as an arbitrary list); and on report
regeneration every emitted record whose name was starred in the previous
report is starred again. -/
theorem starred_monotone :
    (∀ (g : List Album) (a m : Album), a ∈ g → a.starred = true →
        merge_albums g = some m → m.starred = true)
    ∧ (∀ (old new : List Album) (e : Album),
        e ∈ applyStarred (starredNames old) new →
        e.album_name ∈ starredNames old → e.starred = true) := by
  constructor
  · intro g a m hma hst hm
    match g with
    | [] => exact absurd hma (List.not_mem_nil a)
    | [x] =>
      rcases List.mem_singleton.mp hma with rfl
      rw [merge_albums] at hm
      rw [← Option.some.inj hm, hst]
    | x :: y :: tl =>
      rw [merge_albums] at hm
      cases hs : sortDescBy (fun x => x.play_count) (x :: y :: tl) with
      | nil => exact absurd hs sortDescBy_ne_nil
      | cons b rest =>
        rw [hs] at hm
        have hmm := Option.some.inj hm
        have hmem : a ∈ b :: rest := by
          rw [← hs]
          exact mem_sortDescBy.mpr hma
        rw [← hmm, foldl_foldAlbum_starred]
        rcases List.mem_cons.mp hmem with rfl | hrest
        · rw [hst]; rfl
        · have : rest.any (fun x => x.starred) = true :=
            List.any_eq_true.mpr ⟨a, hrest, hst⟩
          rw [this, Bool.or_true]
  · intro old new e he hname
    rcases List.mem_map.mp he with ⟨x, _, hx⟩
    by_cases hc : (starredNames old).contains x.album_name = true
    · rw [← hx, if_pos hc]
    · rw [← hx, if_neg hc] at hname ⊢
      exact absurd (List.elem_eq_true_of_mem hname) hc

/-- The C3 theorem applied at a concrete group and a concrete regenerated
report: merging the unstarred high-play record with the starred duplicate
yields a starred record, and a fresh record whose name was starred in the
old report comes out starred. -/
theorem starred_monotone_witness :
    albAB.starred = true ∧
      ({ albA with starred := true } : Album).starred = true :=
  ⟨starred_monotone.1 [albA, albB] albB albAB (by decide) (by decide)
      (by decide),
   starred_monotone.2 [albB] [albA] { albA with starred := true }
      (by decide) (by decide)⟩

/-- C2: the merge/deduplication pass is idempotent — re-running
`deduplicate_albums.main` on an already-deduplicated collection leaves it
unchanged, for every starting collection. After one pass all album names are
pairwise distinct, so the second pass finds no duplicate group and returns
early without touching the data. -/
theorem dedup_idempotent (l : List Album) :
    dedup_main (dedup_main l) = dedup_main l := by
  by_cases h : (groupByName l).all (fun p => p.2.length ≤ 1) = true
  · have h1 : dedup_main l = l := by rw [dedup_main]; exact if_pos h
    rw [h1]
    exact h1
  · have h1 : dedup_main l
        = sortDescBy (fun x => x.play_count)
            ((groupByName l).filterMap fun p => merge_albums p.2) := by
      rw [dedup_main]; exact if_neg h
    have hwf := groupByName_wf l
    have hnames := filterMap_merge_names (groupByName l) hwf.2
    have hnodup : ((dedup_main l).map fun a => a.album_name).Nodup := by
      rw [h1]
      have hperm := (sortDescBy_perm (fun x => x.play_count)
        ((groupByName l).filterMap fun p => merge_albums p.2)).map
          (fun a => a.album_name)
      exact hperm.nodup_iff.mpr (by rw [hnames]; exact hwf.1)
    exact dedup_main_of_nodup (dedup_main l) hnodup

/-- C4 counterexample: `merge_albums` never copies artist or genre from a
non-base record into a base that lacks them — folding `albB` (which carries
artist `"Y"` and genre `"Pop"`) into base `albA` (which has neither) leaves
the merged record with neither. -/
theorem merge_does_not_copy_artist_genre :
    merge_albums [albA, albB] = some albAB
    ∧ albA.artist_name = none ∧ albB.artist_name = some "Y"
    ∧ albAB.artist_name = none
    ∧ albA.genre = none ∧ albB.genre = some "Pop"
    ∧ albAB.genre = none := by
  decide

/-- C4 (amended): the record with the highest play count is the base and the
merged record keeps the base's play count, artist and genre unchanged (artist
and genre are never copied across); first-listen is the code-point minimum of
the group's non-empty first-listen values (empty iff the whole group is
empty-valued), last-listen the maximum; and the `strava_` fields are left
exactly as the base's whenever the base already has a truthy
`strava_activity_id` or no record of the group has one. -/
theorem merge_albums_characterization (g : List Album) (m : Album)
    (hm : merge_albums g = some m) :
    ∃ b, b ∈ g
      ∧ (∀ a ∈ g, a.play_count ≤ b.play_count)
      ∧ m.album_name = b.album_name
      ∧ m.play_count = b.play_count
      ∧ m.artist_name = b.artist_name
      ∧ m.genre = b.genre
      ∧ (∃ a ∈ g, a.first_listen = m.first_listen)
      ∧ (m.first_listen = "" ↔ ∀ a ∈ g, a.first_listen = "")
      ∧ (∀ a ∈ g, a.first_listen ≠ "" → pyLt a.first_listen m.first_listen = false)
      ∧ (∃ a ∈ g, a.last_listen = m.last_listen)
      ∧ (m.last_listen = "" ↔ ∀ a ∈ g, a.last_listen = "")
      ∧ (∀ a ∈ g, a.last_listen ≠ "" → pyLt m.last_listen a.last_listen = false)
      ∧ (truthy (b.strava.lookup "strava_activity_id") = true →
          m.strava = b.strava)
      ∧ ((∀ a ∈ g, truthy (a.strava.lookup "strava_activity_id") = false) →
          m.strava = b.strava) := by
  match g with
  | [] => exact absurd hm (by rw [merge_albums]; exact Option.noConfusion)
  | [x] =>
    rw [merge_albums] at hm
    have hmx := Option.some.inj hm
    subst hmx
    refine ⟨x, List.mem_singleton.mpr rfl, ?_, rfl, rfl, rfl, rfl,
      ⟨x, List.mem_singleton.mpr rfl, rfl⟩, ?_,
      ?_, ⟨x, List.mem_singleton.mpr rfl, rfl⟩, ?_, ?_, fun _ => rfl,
      fun _ => rfl⟩
    · intro a ha
      rw [List.mem_singleton.mp ha]
    · constructor
      · intro h a ha; rw [List.mem_singleton.mp ha]; exact h
      · intro h; exact h x (List.mem_singleton.mpr rfl)
    · intro a ha _
      rw [List.mem_singleton.mp ha]
      exact pyLt_irrefl _
    · constructor
      · intro h a ha; rw [List.mem_singleton.mp ha]; exact h
      · intro h; exact h x (List.mem_singleton.mpr rfl)
    · intro a ha _
      rw [List.mem_singleton.mp ha]
      exact pyLt_irrefl _
  | x :: y :: tl =>
    rw [merge_albums] at hm
    cases hs : sortDescBy (fun z => z.play_count) (x :: y :: tl) with
    | nil => exact absurd hs sortDescBy_ne_nil
    | cons b rest =>
      rw [hs] at hm
      have hmm := Option.some.inj hm
      have hgmem : ∀ a, a ∈ x :: y :: tl ↔ a ∈ b :: rest := by
        intro a
        rw [← hs, mem_sortDescBy]
      have hb : b ∈ x :: y :: tl :=
        (hgmem b).mpr (List.mem_cons_self b rest)
      have hpair := sortDescBy_pairwise (fun z => z.play_count) (x :: y :: tl)
      rw [hs] at hpair
      have hmax : ∀ a ∈ x :: y :: tl, a.play_count ≤ b.play_count := by
        intro a ha
        rcases List.mem_cons.mp ((hgmem a).mp ha) with rfl | hr
        · exact le_refl _
        · exact (List.pairwise_cons.mp hpair).1 a hr
      have hbody := foldl_foldAlbum_body_fixed rest b
      have hflspec := betterStep_foldl_spec pyLt pyLt_irrefl pyLt_trans
        pyLt_trichotomy (rest.map fun a => a.first_listen) b.first_listen
      have hllspec := betterStep_foldl_spec (fun s t => pyLt t s)
        pyLt_irrefl (fun a b c h1 h2 => pyLt_trans c b a h2 h1)
        pyLt_flip_trichotomy (rest.map fun a => a.last_listen) b.last_listen
      have hfl : m.first_listen
          = (rest.map fun a => a.first_listen).foldl (betterStep pyLt)
              b.first_listen := by
        rw [← hmm, foldl_foldAlbum_first_listen]
      have hll : m.last_listen
          = (rest.map fun a => a.last_listen).foldl
              (betterStep fun s t => pyLt t s) b.last_listen := by
        rw [← hmm, foldl_foldAlbum_last_listen]
      refine ⟨b, hb, hmax, ?_, ?_, ?_, ?_, ?_, ?_, ?_, ?_, ?_, ?_, ?_, ?_⟩
      · rw [← hmm]; exact hbody.1
      · rw [← hmm]; exact hbody.2.1
      · rw [← hmm]; exact hbody.2.2.1
      · rw [← hmm]; exact hbody.2.2.2
      · rcases hflspec.1 with h | h
        · exact ⟨b, hb, by rw [hfl, h]⟩
        · rcases List.mem_map.mp h with ⟨a, har, hae⟩
          exact ⟨a, (hgmem a).mpr (List.mem_cons_of_mem b har),
            by rw [hfl, hae]⟩
      · rw [hfl, hflspec.2.1]
        constructor
        · rintro ⟨hbe, hall⟩ a ha
          rcases List.mem_cons.mp ((hgmem a).mp ha) with rfl | hr
          · exact hbe
          · exact hall a.first_listen (List.mem_map_of_mem _ hr)
        · intro h
          refine ⟨h b hb, ?_⟩
          intro s hsm
          rcases List.mem_map.mp hsm with ⟨a, har, hae⟩
          rw [← hae]
          exact h a ((hgmem a).mpr (List.mem_cons_of_mem b har))
      · intro a ha hane
        rw [hfl]
        rcases List.mem_cons.mp ((hgmem a).mp ha) with rfl | hr
        · exact hflspec.2.2.1 hane
        · exact hflspec.2.2.2 a.first_listen (List.mem_map_of_mem _ hr) hane
      · rcases hllspec.1 with h | h
        · exact ⟨b, hb, by rw [hll, h]⟩
        · rcases List.mem_map.mp h with ⟨a, har, hae⟩
          exact ⟨a, (hgmem a).mpr (List.mem_cons_of_mem b har),
            by rw [hll, hae]⟩
      · rw [hll, hllspec.2.1]
        constructor
        · rintro ⟨hbe, hall⟩ a ha
          rcases List.mem_cons.mp ((hgmem a).mp ha) with rfl | hr
          · exact hbe
          · exact hall a.last_listen (List.mem_map_of_mem _ hr)
        · intro h
          refine ⟨h b hb, ?_⟩
          intro s hsm
          rcases List.mem_map.mp hsm with ⟨a, har, hae⟩
          rw [← hae]
          exact h a ((hgmem a).mpr (List.mem_cons_of_mem b har))
      · intro a ha hane
        rw [hll]
        rcases List.mem_cons.mp ((hgmem a).mp ha) with rfl | hr
        · exact hllspec.2.2.1 hane
        · exact hllspec.2.2.2 a.last_listen (List.mem_map_of_mem _ hr) hane
      · intro ht
        rw [← hmm]
        exact foldl_foldAlbum_strava_of_truthy rest b ht
      · intro hnone
        rw [← hmm]
        exact foldl_foldAlbum_strava_no_donors rest b
          (fun a ha => hnone a ((hgmem a).mpr (List.mem_cons_of_mem b ha)))

/-- The C4 amended theorem applied at the concrete duplicate group
`[albA, albB]`: the base of the merge is a group member with the maximal play
count and the merged artist field is the base's (not the donor's). -/
theorem merge_albums_characterization_witness :
    ∃ b, b ∈ [albA, albB] ∧ albAB.artist_name = b.artist_name
      ∧ ∀ a ∈ [albA, albB], a.play_count ≤ b.play_count := by
  rcases merge_albums_characterization [albA, albB] albAB (by decide) with
    ⟨b, hb, hmax, _, _, hart, _⟩
  exact ⟨b, hb, hart, hmax⟩

/-- C7: after processing any event stream, every aggregate's listened-track
set is a subset of its all-track set; every aggregate with at least one track
has a completion ratio in `[0, 1]`; and every key in the completed-albums
selection has a positive track count (zero-track keys are skipped before the
ratio is evaluated). -/
theorem aggregator_invariants (rows : List Row) (keys : List AlbumKey)
    (k : AlbumKey) :
    ((processAll rows).listenedTracks k ⊆ (processAll rows).albumTracks k)
    ∧ (0 < ((processAll rows).albumTracks k).card →
        0 ≤ completion_ratio (processAll rows) k
        ∧ completion_ratio (processAll rows) k ≤ 1)
    ∧ ∀ k2 ∈ calculate_completed (processAll rows) keys,
        0 < ((processAll rows).albumTracks k2).card := by
  refine ⟨processAll_subset rows k, ?_, ?_⟩
  · intro hpos
    have hsub := processAll_subset rows k
    have hle : ((processAll rows).listenedTracks k).card
        ≤ ((processAll rows).albumTracks k).card := Finset.card_le_card hsub
    rw [completion_ratio]
    constructor
    · exact div_nonneg (Nat.cast_nonneg _) (Nat.cast_nonneg _)
    · rw [div_le_one (by exact_mod_cast hpos)]
      exact_mod_cast hle
  · intro k2 hk2
    rw [calculate_completed] at hk2
    have hm := List.mem_filter.mp hk2
    have hcond := of_decide_eq_true hm.2
    exact Nat.pos_of_ne_zero hcond.1

theorem processAll_rowPlain_tracks :
    (processAll [rowPlain]).albumTracks ("Foo", "") = {"s"} := by
  decide

theorem itl_num_60000 :
    is_track_listened (DurField.num 60000) (DurField.num 60000) = true := by
  simp only [is_track_listened, DurField.parse]
  rw [if_neg (by norm_num)]
  exact decide_eq_true (by norm_num [LISTEN_THRESHOLD])

theorem processAll_rowPlain_listened :
    (processAll [rowPlain]).listenedTracks ("Foo", "") = {"s"} := by
  have hkey : get_album_key rowPlain = ("Foo", "") := by decide
  have hsong : pyStrip rowPlain.songName = "s" := by decide
  have hdur : is_track_listened rowPlain.playDur rowPlain.mediaDur = true :=
    itl_num_60000
  simp only [processAll, List.foldl_cons, List.foldl_nil, processRow, hkey,
    hsong, hdur]
  simp [updFin, initAgg]

theorem calc_completed_rowPlain :
    calculate_completed (processAll [rowPlain]) [("Foo", "")]
      = [("Foo", "")] := by
  rw [calculate_completed]
  simp [List.filter_cons, processAll_rowPlain_tracks,
    processAll_rowPlain_listened, completion_ratio, COMPLETION_THRESHOLD]
  norm_num

/-- The C7 theorem applied at a concrete one-row stream: the lone album's
completion ratio lies in `[0, 1]` and its key appears in the completed output
with a positive track count. -/
theorem aggregator_invariants_witness :
    (0 ≤ completion_ratio (processAll [rowPlain]) ("Foo", "")
      ∧ completion_ratio (processAll [rowPlain]) ("Foo", "") ≤ 1)
    ∧ 0 < ((processAll [rowPlain]).albumTracks ("Foo", "")).card := by
  refine ⟨(aggregator_invariants [rowPlain] [("Foo", "")] ("Foo", "")).2.1 ?_,
    (aggregator_invariants [rowPlain] [("Foo", "")] ("Foo", "")).2.2
      ("Foo", "") ?_⟩
  · rw [processAll_rowPlain_tracks]
    simp
  · rw [calc_completed_rowPlain]
    exact List.mem_singleton.mpr rfl

/-- C5: the activity matcher returns `none` exactly when no parseable
candidate has delta within the tolerance window (a delta equal to the
tolerance qualifies, one beyond never does, both by the `≤` in the window
predicate); and a returned candidate achieves the minimal delta among all
qualifying candidates, every qualifying candidate scanned before it having a
strictly larger delta — so on ties the first-encountered candidate is kept. -/
theorem matcher_correct (t : Int) (acts : List StravaActivity) (tolMin : Nat) :
    (find_matching (some t) acts tolMin = none ↔
      ∀ a ∈ acts, ∀ d, actDelta t a = some d → ¬ d ≤ tolMin * 60)
    ∧ (∀ a, find_matching (some t) acts tolMin = some a →
        ∃ d, actDelta t a = some d ∧ d ≤ tolMin * 60
          ∧ (∀ b ∈ acts, ∀ db, actDelta t b = some db →
              db ≤ tolMin * 60 → d ≤ db)
          ∧ ∃ l1 l2, acts = l1 ++ a :: l2
              ∧ ∀ b ∈ l1, ∀ db, actDelta t b = some db →
                  db ≤ tolMin * 60 → d < db) := by
  obtain ⟨hnone, hsome⟩ := findGo_spec t (tolMin * 60) acts none
    (fun b bd hb => absurd hb (by simp))
  constructor
  · simp only [find_matching]
    constructor
    · intro h
      exact (hnone.mp (Option.map_eq_none'.mp h)).2
    · intro h
      rw [hnone.mpr ⟨rfl, h⟩]
      rfl
  · intro a h
    simp only [find_matching] at h
    cases hg : findGo t (tolMin * 60) acts none with
    | none =>
      rw [hg] at h
      exact absurd h (by simp)
    | some p =>
      obtain ⟨r, dr⟩ := p
      rw [hg] at h
      have hra : r = a := by simpa using h
      subst hra
      obtain ⟨h1, h2, h3⟩ := hsome r dr hg
      rcases h3 with h3 | ⟨l1, l2, hsplit, hrd, hpre, _⟩
      · exact absurd h3 (by simp)
      · exact ⟨dr, hrd, h1, h2, l1, l2, hsplit, hpre⟩

/-- The C5 theorem applied at concrete inputs: with candidates at 45, 10 and
200 minutes and a 60-minute tolerance the returned match is within tolerance,
and a lone candidate one second beyond the tolerance yields no match. -/
theorem matcher_correct_witness :
    (∃ d, actDelta 0 act10 = some d ∧ d ≤ 60 * 60)
    ∧ find_matching (some 0) [act61] 60 = none := by
  constructor
  · obtain ⟨d, hd, hdt, _, _⟩ :=
      (matcher_correct 0 [act45, act10, act200] 60).2 act10 (by decide)
    exact ⟨d, hd, hdt⟩
  · refine (matcher_correct 0 [act61] 60).1.mpr ?_
    intro a ha d hd
    rw [List.mem_singleton.mp ha] at hd
    have h61 : actDelta 0 act61 = some 3601 := by decide
    rw [h61] at hd
    cases Option.some.inj hd
    decide

/-- C8 counterexample: an existing record that already has a
`strava_activity_id` gains nothing at all from a colliding speculative record
— here it stays without the `strava_activity_name` the speculative record
carries, contradicting "gains exactly the matched-activity metric fields it
was missing". -/
theorem speculative_fold_gains_nothing :
    updateExisting jrecE jrecM = jrecE
    ∧ jrecE.lookup "strava_activity_name" = none
    ∧ jrecM.lookup "strava_activity_name" = some "Morning Run"
    ∧ (updateExisting jrecE jrecM).lookup "strava_activity_name" = none := by
  decide

/-- C8 (amended): on a key collision the speculative record is discarded (the
collection keeps its length; only the first record of the colliding name is
updated in place), all non-strava fields of the existing record are kept
unchanged, and the strava update is gated solely on the presence of the
`strava_activity_id` key in the existing record: if present nothing changes
(even where other strava fields are missing), if absent every one of the five
strava fields present in the speculative record is written, overwriting any
existing value of those fields. -/
theorem speculative_fold_characterization (e m : JRec) (k : String) :
    ((updateExisting e m).lookup k
      = if hasKey e "strava_activity_id" = false ∧ k ∈ stravaCopyKeys
            ∧ (m.lookup k).isSome = true
        then m.lookup k else e.lookup k)
    ∧ (k ∉ stravaCopyKeys → (updateExisting e m).lookup k = e.lookup k)
    ∧ ∀ (tf : JRec → JRec) (existings : List JRec),
        (∃ e2 ∈ existings, e2.lookup "album_name"
            = some ((m.lookup "album_name").getD "")) →
        processMaybe tf existings m
            = updateFirst ((m.lookup "album_name").getD "") m existings
        ∧ (processMaybe tf existings m).length = existings.length := by
  have hchar : (updateExisting e m).lookup k
      = if hasKey e "strava_activity_id" = false ∧ k ∈ stravaCopyKeys
            ∧ (m.lookup k).isSome = true
        then m.lookup k else e.lookup k := by
    rw [updateExisting]
    by_cases hhas : hasKey e "strava_activity_id" = true
    · rw [if_pos hhas,
        if_neg fun hcon => by rw [hhas] at hcon; exact absurd hcon.1 (by simp)]
    · have hf : hasKey e "strava_activity_id" = false := by
        cases h : hasKey e "strava_activity_id" with
        | false => rfl
        | true => exact absurd h hhas
      rw [if_neg hhas, foldl_copy_lookup m stravaCopyKeys (by decide) e k]
      by_cases hcond : k ∈ stravaCopyKeys ∧ (m.lookup k).isSome = true
      · rw [if_pos hcond, if_pos ⟨hf, hcond⟩]
      · rw [if_neg hcond, if_neg fun hcon => hcond ⟨hcon.2.1, hcon.2.2⟩]
  refine ⟨hchar, ?_, ?_⟩
  · intro hk
    rw [hchar, if_neg fun hcon => hk hcon.2.1]
  · intro tf existings hcol
    have hpm : processMaybe tf existings m
        = updateFirst ((m.lookup "album_name").getD "") m existings := by
      rw [processMaybe]
      rcases hcol with ⟨e2, he2, heq⟩
      rw [if_pos (List.any_eq_true.mpr ⟨e2, he2, decide_eq_true heq⟩)]
    exact ⟨hpm, by rw [hpm, updateFirst_length]⟩

/-- The C8 amended theorem applied at concrete records: with
`strava_activity_id` absent from the existing record, the speculative
record's distance value overwrites the existing one, the `album_name` body
field is untouched, and the collection does not grow. -/
theorem speculative_fold_characterization_witness :
    (updateExisting jrecE0 jrecM0).lookup "strava_distance_miles" = some "2"
    ∧ (updateExisting jrecE0 jrecM0).lookup "album_name" = some "A"
    ∧ (processMaybe id [jrecE0] jrecM0).length = 1 := by
  refine ⟨?_, ?_, ?_⟩
  · rw [(speculative_fold_characterization jrecE0 jrecM0
      "strava_distance_miles").1]
    decide
  · rw [(speculative_fold_characterization jrecE0 jrecM0
      "album_name").2.1 (by decide)]
    decide
  · exact ((speculative_fold_characterization jrecE0 jrecM0 "x").2.2 id
      [jrecE0] ⟨jrecE0, List.mem_singleton.mpr rfl, by decide⟩).2

/-- C1 counterexample: `MusicAnalyzer.get_album_key` applies no `" - Single"`
normalization — on a row whose album name is `"Foo - Single"` the derived
entity key keeps the suffix, while the watch analyzer's derivation strips it
to `"Foo"` on the very same row. -/
theorem aggregator_key_keeps_single_suffix :
    get_album_key rowSingle = ("Foo - Single", "")
    ∧ get_album_key rowSingle ≠ ("Foo", "")
    ∧ watchAlbumName rowSingle = "Foo" := by
  decide

/-- C1 (amended): the `" - Single"` normalization is not applied uniformly.
The watch analyzer's key is exactly the aggregator's key with the suffix
stripped, and the genre-catalog loader strips the suffix as well; but
`get_album_key` itself leaves the suffix in place, so rows for the same
logical album with and without the suffix get distinct aggregator keys while
the watch analyzer maps them to one key. -/
theorem single_suffix_normalization_inconsistent :
    (∀ r : Row, watchAlbumName r = stripSingle (get_album_key r).1)
    ∧ get_album_key rowSingle ≠ get_album_key rowPlain
    ∧ watchAlbumName rowSingle = watchAlbumName rowPlain
    ∧ genreAlbumKey "Artist - Foo - Single" = some "Foo" :=
  ⟨fun _ => rfl, by decide, by decide, by decide⟩

/-- C6: `is_track_listened` returns `true` iff both duration fields parse,
the media duration is non-zero and `play / media` meets the listen threshold;
a missing or zero media duration and a malformed field on either side all
yield `false` instead of an error. -/
theorem listen_classifier_correct (p m : DurField) :
    (is_track_listened p m = true ↔
      ∃ pq mq, p.parse = some pq ∧ m.parse = some mq ∧ mq ≠ 0 ∧
        LISTEN_THRESHOLD ≤ pq / mq)
    ∧ is_track_listened p DurField.missing = false
    ∧ is_track_listened p (DurField.num 0) = false
    ∧ is_track_listened p DurField.malformed = false
    ∧ is_track_listened DurField.malformed m = false := by
  refine ⟨?_, ?_, ?_, ?_, ?_⟩
  · constructor
    · intro h
      cases hp : p.parse with
      | none => simp [is_track_listened, hp] at h
      | some pq =>
        cases hm : m.parse with
        | none => simp [is_track_listened, hp, hm] at h
        | some mq =>
          simp only [is_track_listened, hp, hm] at h
          by_cases hz : mq = 0
          · simp [hz] at h
          · rw [if_neg hz] at h
            exact ⟨pq, mq, rfl, rfl, hz, of_decide_eq_true h⟩
    · rintro ⟨pq, mq, hp, hm, hz, hle⟩
      simp only [is_track_listened, hp, hm]
      rw [if_neg hz]
      exact decide_eq_true hle
  · cases p <;> simp [is_track_listened, DurField.parse]
  · cases p <;> simp [is_track_listened, DurField.parse]
  · cases p <;> simp [is_track_listened, DurField.parse]
  · cases m <;> simp [is_track_listened, DurField.parse]

/-- C9: the final summary of `merge_maybe_data.main` reads the name
`completed_albums`, which is never bound in `main` (the completed list is
bound as `existing_completed`), so every run that reaches the summary raises
a `NameError` instead of completing — refuting the never-fails contract for
the record merger. -/
theorem merge_maybe_summary_raises :
    mergeMaybeSummary mergeMaybeMainVars =
      Except.error "NameError: name completed_albums is not defined" := by
  rfl

/-- C10: every record emitted in the watch-albums report has a completion
percentage of at least 50, and an album whose raw completion percentage is
below 50 is silently excluded from the report. -/
theorem watch_report_min_completion (s : WState) (keys : List String) :
    (∀ e ∈ get_watch_albums s keys, 50 ≤ e.completion_percentage)
    ∧ (∀ name, watchCompletion s name < 50 →
        ∀ e ∈ get_watch_albums s keys, e.album_name ≠ name) := by
  have hmem : ∀ e ∈ get_watch_albums s keys, ∃ name ∈ keys,
      ¬ watchCompletion s name < 50 ∧
        e.completion_percentage = roundQ1 (watchCompletion s name) ∧
        e.album_name = name := by
    intro e he
    rw [get_watch_albums, mem_sortDescBy] at he
    rcases List.mem_filterMap.mp he with ⟨name, hnk, hf⟩
    by_cases hc : watchCompletion s name < 50
    · simp [hc] at hf
    · simp only [hc, if_false] at hf
      have hre := Option.some.inj hf
      exact ⟨name, hnk, hc, by rw [← hre], by rw [← hre]⟩
  constructor
  · intro e he
    rcases hmem e he with ⟨name, _, hc, hcp, _⟩
    rw [hcp]
    exact roundQ1_ge_50 (le_of_not_lt hc)
  · intro name hlt e he heq
    rcases hmem e he with ⟨name2, _, hc, _, hname⟩
    rw [heq] at hname
    exact hc (hname ▸ hlt)

theorem watchCompletion_wStateA_A : watchCompletion wStateA "A" = 50 := by
  have hT : wStateA.albumTracks "A" = {"s1", "s2"} := rfl
  have hL : wStateA.listenedTracks "A" = {"s1"} := rfl
  rw [watchCompletion, hT, hL]
  norm_num [show ({"s1", "s2"} : Finset String).card = 2 from by decide,
    show ({"s1"} : Finset String).card = 1 from by decide]

theorem watchCompletion_wStateA_B : watchCompletion wStateA "B" < 50 := by
  have hT : wStateA.albumTracks "B" = {"t1", "t2"} := rfl
  have hL : wStateA.listenedTracks "B" = ∅ := rfl
  rw [watchCompletion, hT, hL]
  norm_num [show ({"t1", "t2"} : Finset String).card = 2 from by decide]

theorem entryA_mem : entryA ∈ get_watch_albums wStateA ["A", "B"] := by
  rw [get_watch_albums, mem_sortDescBy]
  refine List.mem_filterMap.mpr ⟨"A", by simp, ?_⟩
  simp only [watchCompletion_wStateA_A]
  rw [if_neg (by norm_num)]
  norm_num [entryA, roundQ1, round_eq, wStateA,
    show ({"s1", "s2"} : Finset String).card = 2 from by decide,
    show ({"s1"} : Finset String).card = 1 from by decide]

/-- The C10 theorem applied at a concrete state: the 50%-complete album is
reported with percentage at least 50, and no report record carries the name
of the 0%-complete album. -/
theorem watch_report_min_completion_witness :
    50 ≤ entryA.completion_percentage ∧ entryA.album_name ≠ "B" :=
  ⟨(watch_report_min_completion wStateA ["A", "B"]).1 entryA entryA_mem,
   (watch_report_min_completion wStateA ["A", "B"]).2 "B"
     watchCompletion_wStateA_B entryA entryA_mem⟩

end AppleData
